import Mathlib

/-! # tau: module loader, argument filter and dependency processor

A shallow embedding of

* `src/cmd/meta.go` (`getExtraArgs`),
* `src/pkg/api/loader.go` (`loader.load`, `loadModules`, `loadDependencies`,
  `loadModuleDependencies`, `findModuleFiles`, `setSourceDirectory`),
* `src/pkg/terraform/v012/processor.go` (`Processor.ProcessDependencies`),

followed by the properties established about them.
-/

namespace Tau

/-! ## `cmd/meta.go` -/

/-- Go `strings.HasPrefix(s, p)` on the characters of the two strings. -/
def hasPrefix (s p : String) : Bool :=
  p.data.isPrefixOf s.data

/-- Go `fmt.Sprintf("-%s", arg)`. -/
def dashed (arg : String) : String :=
  "-" ++ arg

/-- The inner loop of `getExtraArgs`: `invalidArg` is set as soon as one
element of `invalidArgs` is a prefix of `arg`, and never reset. -/
def markInvalid (arg : String) : List String → Bool → Bool
  | [], invalidArg => invalidArg
  | ia :: rest, invalidArg =>
      markInvalid arg rest (if hasPrefix arg ia then true else invalidArg)

/-- The outer loop of `getExtraArgs`, with `extraArgs` as accumulator. -/
def extraArgsLoop (invalidArgs : List String) : List String → List String → List String
  | [], extraArgs => extraArgs
  | arg :: rest, extraArgs =>
      let arg1 := dashed arg
      let invalidArg := markInvalid arg1 invalidArgs false
      extraArgsLoop invalidArgs rest
        (if !invalidArg then extraArgs ++ [arg1] else extraArgs)

/-- The function `getExtraArgs(invalidArgs...)`; the package variable
`terraformArgs` it ranges over is a parameter. -/
def getExtraArgs (terraformArgs : List String) (invalidArgs : List String) : List String :=
  extraArgsLoop invalidArgs terraformArgs []

/-! ## `pkg/api/loader.go`: the dependency loader -/

/-- Go `error` values. -/
abbrev Err := String

/-- One `dependency` block of a module file: `dep.Name` and `dep.Source`. -/
structure Dependency where
  name : String
  source : String
deriving DecidableEq, Repr

/-- Modelled from the spec: the type `Module` (with `NewModule`, `Hash()` and
the fields `config.Dependencies` and `deps`) is declared outside `src/`. A
`*Module` is its pointer identity `id`, the string `hash` returned by `Hash()`
and the list `config.Dependencies`; its mutable map `deps` lives in the heap
of the loader state, keyed by `id`. -/
structure Module where
  id : Nat
  hash : String
  dependencies : List Dependency
deriving DecidableEq, Repr

/-- What `NewModule(file)` reads from one module file: the hash and the
declared dependencies; the pointer is given at allocation. -/
structure ModuleFile where
  hash : String
  dependencies : List Dependency
deriving DecidableEq, Repr

/-- The effect of `loadSources` + `findModuleFiles` + `NewModule` on a source
string: the module files found there, or an error. -/
abbrev Discovery := String → Except Err (List ModuleFile)

/-- Observable steps of a run, kept in the loader state in the order they
happen: a call `loadModules(src)`, a call `loadModuleDependencies(module)`, and
the hashes of the modules whose loop iteration of `loadDependencies` is active
(innermost first) each time a module is taken from `remaining`. -/
inductive Event where
  | fetch (src : String)
  | visit (mdl : Module)
  | chain (hashes : List String)
deriving DecidableEq, Repr

/-- The `loader` struct together with the heap of `deps` maps.
`loaded` is the map `l.loaded` as an association list whose most recent
binding of a key is the first one; `heap` holds the writes
`m.deps[name] = target` as `(m.id, name, target)`, most recent first. -/
structure Loader where
  src : String
  pwd : String
  loaded : List (String × Module)
  heap : List (Nat × String × Module)
  nextId : Nat
  trace : List Event
deriving DecidableEq, Repr

/-- Map read `l.loaded[hash]`. -/
def lookup : List (String × Module) → String → Option Module
  | [], _ => none
  | (h, m) :: rest, hash => if h = hash then some m else lookup rest hash

/-- Map read `m.deps[name]` for the module with pointer `id`. -/
def depsOf : List (Nat × String × Module) → Nat → String → Option Module
  | [], _, _ => none
  | (i, n, t) :: rest, id, name =>
      if i = id ∧ n = name then some t else depsOf rest id name

/-- Fresh `*Module` values for the files of one discovery. -/
def allocate : Nat → List ModuleFile → List Module
  | _, [] => []
  | nextId, f :: rest => ⟨nextId, f.hash, f.dependencies⟩ :: allocate (nextId + 1) rest

/-- The method `loader.loadModules(src)`. -/
def loadModules (disc : Discovery) (src : String) (l : Loader) :
    Except Err (List Module) × Loader :=
  let l1 := { l with trace := l.trace ++ [Event.fetch src] }
  match disc src with
  | .error e => (.error e, l1)
  | .ok files =>
      (.ok (allocate l1.nextId files), { l1 with nextId := l1.nextId + files.length })

/-- The loop `for _, mod := range modules` of `loadModuleDependencies`
(lines 119-129) for the dependency named `depName`. -/
def wire (depName : String) :
    List Module → List Module → Loader → List Module × Loader
  | [], deps, l => (deps, l)
  | mod :: rest, deps, l =>
      match lookup l.loaded mod.hash with
      | none =>
          wire depName rest (deps ++ [mod])
            { l with heap := (mod.id, depName, mod) :: l.heap }
      | some canonical =>
          wire depName rest deps
            { l with heap := (canonical.id, depName, canonical) :: l.heap }

/-- The loop `for _, dep := range module.config.Dependencies` of
`loadModuleDependencies` (lines 113-130). -/
def loadEach (disc : Discovery) :
    List Dependency → List Module → Loader → Except Err (List Module) × Loader
  | [], deps, l => (.ok deps, l)
  | dep :: rest, deps, l =>
      match loadModules disc dep.source l with
      | (.error e, l1) => (.error e, l1)
      | (.ok modules, l1) =>
          loadEach disc rest (wire dep.name modules deps l1).1
            (wire dep.name modules deps l1).2

/-- The method `loader.loadModuleDependencies(module)`. -/
def loadModuleDependencies (disc : Discovery) (mdl : Module) (l : Loader) :
    Except Err (List Module) × Loader :=
  loadEach disc mdl.dependencies []
    { l with loaded := (mdl.hash, mdl) :: l.loaded
             trace := l.trace ++ [Event.visit mdl] }

/-- The loop `for _, module := range remaining` of `loadDependencies`
(lines 95-104); `recurse` is the nested call `l.loadDependencies(deps, depth+1)`
and `stack` the hashes of the modules being processed by the enclosing calls.
`none` means the nested call ran out of fuel. -/
def forRemaining (disc : Discovery)
    (recurse : List Module → List String → Loader → Option (Except Err Unit × Loader))
    (stack : List String) :
    List Module → Loader → Option (Except Err Unit × Loader)
  | [], l => some (.ok (), l)
  | mdl :: rest, l =>
      match loadModuleDependencies disc mdl
          { l with trace := l.trace ++ [Event.chain (mdl.hash :: stack)] } with
      | (.error e, l1) => some (.error e, l1)
      | (.ok deps, l1) =>
          match recurse deps (mdl.hash :: stack) l1 with
          | none => none
          | some (.error e, l2) => some (.error e, l2)
          | some (.ok (), l2) => forRemaining disc recurse stack rest l2

/-- The method `loader.loadDependencies(modules, depth)`, with a bound `fuel`
on the nesting of recursive calls (`none` when it is exceeded). -/
def loadDependencies (disc : Discovery) :
    Nat → List Module → Int → List String → Loader → Option (Except Err Unit × Loader)
  | 0, _, _, _, _ => none
  | fuel + 1, modules, depth, stack, l =>
      forRemaining disc
        (fun deps stack1 l1 => loadDependencies disc fuel deps (depth + 1) stack1 l1)
        stack
        (modules.filter fun mdl => (lookup l.loaded mdl.hash).isNone)
        l

/-- The method `loader.load()`. -/
def load (disc : Discovery) (fuel : Nat) (l : Loader) : Option (Except Err Unit × Loader) :=
  match loadModules disc l.src l with
  | (.error e, l1) => some (.error e, l1)
  | (.ok modules, l1) => loadDependencies disc fuel modules 0 [] l1

/-- The sources of the `loadModules` calls in a trace, in order. -/
def fetches (t : List Event) : List String :=
  t.filterMap fun ev => match ev with
    | Event.fetch s => some s
    | _ => none

/-- The modules of the `loadModuleDependencies` calls in a trace, in order. -/
def visits (t : List Event) : List Module :=
  t.filterMap fun ev => match ev with
    | Event.visit m => some m
    | _ => none

/-- The chains of nested processing recorded in a trace, in order. -/
def chains (t : List Event) : List (List String) :=
  t.filterMap fun ev => match ev with
    | Event.chain c => some c
    | _ => none

/-- A loader as `newLoader` leaves it, before `setSourceDirectory`. -/
def emptyLoader (src : String) : Loader :=
  { src := src, pwd := "", loaded := [], heap := [], nextId := 0, trace := [] }

/-! ## The traversal cut off at a bound

The same methods once more, with one difference: when the bound on the nesting
is exceeded, the loader state reached so far is given back (with no result)
instead of nothing. This makes the calls made before the bound was hit
observable. -/

/-- The loop `for _, module := range remaining` of `loadDependencies`
(lines 95-104), as `forRemaining`, with a nested call `recurse` that gives
back the state it reached when it has no result. -/
def forRemainingUpTo (disc : Discovery)
    (recurse : List Module → List String → Loader → Option (Except Err Unit) × Loader)
    (stack : List String) :
    List Module → Loader → Option (Except Err Unit) × Loader
  | [], l => (some (.ok ()), l)
  | mdl :: rest, l =>
      match loadModuleDependencies disc mdl
          { l with trace := l.trace ++ [Event.chain (mdl.hash :: stack)] } with
      | (.error e, l1) => (some (.error e), l1)
      | (.ok deps, l1) =>
          match recurse deps (mdl.hash :: stack) l1 with
          | (none, l2) => (none, l2)
          | (some (.error e), l2) => (some (.error e), l2)
          | (some (.ok ()), l2) => forRemainingUpTo disc recurse stack rest l2

/-- The method `loader.loadDependencies(modules, depth)`, as
`loadDependencies`, run until it returns or the nesting exceeds `fuel`. -/
def loadDependenciesUpTo (disc : Discovery) :
    Nat → List Module → Int → List String → Loader → Option (Except Err Unit) × Loader
  | 0, _, _, _, l => (none, l)
  | fuel + 1, modules, depth, stack, l =>
      forRemainingUpTo disc
        (fun deps stack1 l1 => loadDependenciesUpTo disc fuel deps (depth + 1) stack1 l1)
        stack
        (modules.filter fun mdl => (lookup l.loaded mdl.hash).isNone)
        l

/-- The method `loader.load()`, as `load`, run until it returns or the nesting
exceeds `fuel`. -/
def loadUpTo (disc : Discovery) (fuel : Nat) (l : Loader) :
    Option (Except Err Unit) × Loader :=
  match loadModules disc l.src l with
  | (.error e, l1) => (some (.error e), l1)
  | (.ok modules, l1) => loadDependenciesUpTo disc fuel modules 0 [] l1

/-- The result of a run cut off at a bound, read as the result of the run
with fuel: nothing when the bound was hit. -/
def finished : Option (Except Err Unit) × Loader → Option (Except Err Unit × Loader)
  | (none, _) => none
  | (some r, l) => some (r, l)

/-! ## `pkg/terraform/v012/processor.go` -/

/-- Where the output of a command goes: `shell.Processors(debugLog)` only
logs it, `shell.Processors(buffer)` keeps it in the buffer. -/
inductive Sink where
  | debugLog
  | buffer
deriving DecidableEq, Repr

/-- The fields of `shell.Options` that `ProcessDependencies` sets. -/
structure Options where
  stdout : Sink
  stderr : Sink
  workingDirectory : String
deriving DecidableEq, Repr

/-- One call `p.executor.Execute(options, command, args...)`. -/
structure Call where
  options : Options
  command : String
  args : List String
deriving DecidableEq, Repr

/-- What one run of a command gives back: the error (or `nil`), the text the
command wrote to its standard output, and the world after the run. -/
structure Outcome (W : Type) where
  err : Option Err
  stdout : String
  world : W

/-- Modelled from the spec: the type `Executor` and its method `Execute` are
declared outside `src/`; the executor is a function from the options, the
command line and the world to an outcome. -/
abbrev Executor (W : Type) := Options → String → List String → W → Outcome W

/-- The world the commands act on, with the calls made so far, oldest
first. -/
structure Shell (W : Type) where
  world : W
  calls : List Call

/-- The call `p.executor.Execute(options, command, args...)`: the call is
recorded and the command runs. -/
def Execute {W : Type} (executor : Executor W) (options : Options) (command : String)
    (args : List String) (s : Shell W) : Outcome (Shell W) :=
  let o := executor options command args s.world
  { err := o.err, stdout := o.stdout
    world := { world := o.world, calls := s.calls ++ [⟨options, command, args⟩] } }

/-- What a `processors.Buffer` holds after a command ran with `sink` as its
standard output. -/
def buffered (sink : Sink) (buffer : String) (stdout : String) : String :=
  match sink with
  | Sink.buffer => buffer ++ stdout
  | Sink.debugLog => buffer

/-- The method `Processor.ProcessDependencies(dest)`; `resolve` is
`p.resolver.ResolveStateOutput`, declared outside `src/`, as a function from
the buffered text to a value map or an error. -/
def ProcessDependencies {W V : Type} (executor : Executor W)
    (resolve : String → Except Err V) (dest : String) (s : Shell W) :
    Except Err V × Shell W :=
  let options : Options :=
    { stdout := Sink.debugLog, stderr := Sink.debugLog, workingDirectory := dest }
  let o1 := Execute executor options "init" [] s
  match o1.err with
  | some err => (.error err, o1.world)
  | none =>
      let o2 := Execute executor options "apply" [] o1.world
      match o2.err with
      | some err => (.error err, o2.world)
      | none =>
          let buffer := ""
          let options1 := { options with stdout := Sink.buffer }
          let o3 := Execute executor options1 "output" ["-json"] o2.world
          match o3.err with
          | some err => (.error err, o3.world)
          | none => (resolve (buffered options1.stdout buffer o3.stdout), o3.world)

/-! ## Go `strings` and `path`, as used by `setSourceDirectory`

Go strings are lists of characters here; the functions below only look for
the characters `/` and `.`. -/

/-- Helper of `strings.Index`: the position of the first occurrence of
`substr` in `s`, counted from `i`, or `-1`. -/
def indexFrom (substr : List Char) : List Char → Nat → Int
  | [], i => if substr = [] then (i : Int) else -1
  | c :: cs, i =>
      if substr.isPrefixOf (c :: cs) then (i : Int) else indexFrom substr cs (i + 1)

/-- Go `strings.Index(s, substr)`. -/
def Index (s substr : String) : Int :=
  indexFrom substr.data s.data 0

/-- Helper of `strings.Replace` for a non-empty `old` and `n = 1`. -/
def replaceFirst (old new : List Char) : List Char → List Char
  | [] => []
  | c :: cs =>
      if old.isPrefixOf (c :: cs) then new ++ (c :: cs).drop old.length
      else c :: replaceFirst old new cs

/-- Go `strings.Replace(s, old, new, 1)` for a non-empty `old`: the first
occurrence of `old` is replaced. -/
def ReplaceOnce (s old new : String) : String :=
  ⟨replaceFirst old.data new.data s.data⟩

/-- Go `strings.LastIndexByte(s, c)`: the last position of `c`, or `-1`. -/
def LastIndexByte (c : Char) : List Char → Int
  | [] => -1
  | x :: xs =>
      if LastIndexByte c xs ≥ 0 then LastIndexByte c xs + 1
      else if x = c then 0 else -1

/-- The inner loop of the `..` case of `path.Clean`, entered after the first
`out.w--` with `w` the new value of `out.w`:
`for out.w > dotdot && out.index(out.w) != '/' { out.w-- }`; the result is the
final `out.w`. -/
def backtrack (out : List Char) (dotdot : Nat) : Nat → Nat
  | 0 => 0
  | w + 1 =>
      if w + 1 > dotdot ∧ out[w + 1]? ≠ some '/' then backtrack out dotdot w else w + 1

/-- The loop `for r < n` of `path.Clean`: `p` is `path[r:]`, `out` the
characters written so far (`out.w` is its length), and `fuel` bounds the
number of iterations (each one reads at least one character). -/
def cleanLoop (rooted : Bool) : Nat → List Char → List Char → Nat → List Char
  | 0, _, out, _ => out
  | fuel + 1, p, out, dotdot =>
      if p = [] then out
      else if p[0]? = some '/' then
        cleanLoop rooted fuel (p.drop 1) out dotdot
      else if p[0]? = some '.' ∧ (p.length = 1 ∨ p[1]? = some '/') then
        cleanLoop rooted fuel (p.drop 1) out dotdot
      else if p[0]? = some '.' ∧ p[1]? = some '.' ∧ (p.length = 2 ∨ p[2]? = some '/') then
        if out.length > dotdot then
          cleanLoop rooted fuel (p.drop 2)
            (out.take (backtrack out dotdot (out.length - 1))) dotdot
        else if !rooted then
          cleanLoop rooted fuel (p.drop 2)
            ((if out.length > 0 then out ++ ['/'] else out) ++ ['.', '.'])
            ((if out.length > 0 then out ++ ['/'] else out) ++ ['.', '.']).length
        else
          cleanLoop rooted fuel (p.drop 2) out dotdot
      else
        cleanLoop rooted fuel (p.dropWhile fun c => c ≠ '/')
          ((if (rooted = true ∧ out.length ≠ 1) ∨ (rooted = false ∧ out.length ≠ 0)
              then out ++ ['/'] else out) ++ p.takeWhile fun c => c ≠ '/')
          dotdot

/-- Go `path.Clean` on the characters of the path. -/
def cleanChars (path : List Char) : List Char :=
  if path = [] then ['.']
  else
    let rooted : Bool := path[0]? = some '/'
    let out :=
      if rooted then cleanLoop rooted path.length (path.drop 1) ['/'] 1
      else cleanLoop rooted path.length path [] 0
    if out.length = 0 then ['.'] else out

/-- Go `path.Clean(path)`. -/
def Clean (path : String) : String :=
  ⟨cleanChars path.data⟩

/-- Go `path.Split(path)`: `path[:i+1]` and `path[i+1:]` for `i` the last
position of `/`. -/
def Split (path : String) : String × String :=
  (⟨path.data.take (LastIndexByte '/' path.data + 1).toNat⟩,
   ⟨path.data.drop (LastIndexByte '/' path.data + 1).toNat⟩)

/-- Go `path.Dir(path)`. -/
def Dir (path : String) : String :=
  Clean (Split path).1

/-- The loop of `path.Base` that strips trailing slashes, at most `fuel`
of them. -/
def stripSlashes : Nat → List Char → List Char
  | 0, p => p
  | fuel + 1, p => if p.getLast? = some '/' then stripSlashes fuel p.dropLast else p

/-- Go `path.Base(path)`. -/
def Base (path : String) : String :=
  if path.data = [] then "."
  else
    let path1 := stripSlashes path.data.length path.data
    let path2 :=
      if LastIndexByte '/' path1 ≥ 0 then path1.drop (LastIndexByte '/' path1 + 1).toNat
      else path1
    if path2 = [] then "/" else ⟨path2⟩

/-- Go `strings.Join(elem, "/")`. -/
def joinSlash : List String → String
  | [] => ""
  | [e] => e
  | e :: rest => e ++ "/" ++ joinSlash rest

/-- Go `path.Join(elem...)`: the elements from the first non-empty one on are
joined with slashes and the result is cleaned. -/
def Join : List String → String
  | [] => ""
  | e :: rest => if e.data ≠ [] then Clean (joinSlash (e :: rest)) else Join rest

/-! ## `pkg/api/loader.go`: `setSourceDirectory` -/

/-- What `setSourceDirectory` asks of its environment: `os.Getwd()`,
`getter.Detect(src, pwd, getter.Detectors)` and `os.Stat(path)` followed by
`IsDir()`. -/
structure Env where
  getwd : Except Err String
  detect : String → String → Except Err String
  stat : String → Except Err Bool

/-- The method `loader.setSourceDirectory()`. -/
def setSourceDirectory (env : Env) (l : Loader) : Except Err Unit × Loader :=
  match env.getwd with
  | .error err => (.error err, l)
  | .ok pwd =>
      match env.detect l.src pwd with
      | .error err => (.error err, l)
      | .ok getterSource =>
          if Index getterSource "file://" = 0 then
            match env.stat (ReplaceOnce getterSource "file://" "") with
            | .error err => (.error err, l)
            | .ok isDir =>
                if !isDir then
                  (.ok (), { l with pwd := Dir (ReplaceOnce getterSource "file://" "")
                                    src := Base (ReplaceOnce getterSource "file://" "") })
                else
                  (.ok (), { l with pwd := ReplaceOnce getterSource "file://" ""
                                    src := "." })
          else (.ok (), l)

/-! ## `pkg/api/loader.go`: `findModuleFiles` -/

/-- What `findModuleFiles` asks of the file system: `filepath.Glob(pattern)`,
which gives the matching paths or an error, and `os.Stat(path)` followed by
`IsDir()`, which gives whether the path is a directory or an error. -/
structure FileSystem where
  glob : String → Except Err (List String)
  stat : String → Except Err Bool

/-- The loop `for _, match := range m` of `findModuleFiles` (lines 162-172):
a failing `os.Stat` ends the call with its error, and a path that is not a
directory is appended to `matches`. -/
def appendFiles (fs : FileSystem) : List String → List String → Except Err (List String)
  | [], matched => .ok matched
  | path :: rest, matched =>
      match fs.stat path with
      | .error err => .error err
      | .ok isDir => appendFiles fs rest (if !isDir then matched ++ [path] else matched)

/-- The loop `for _, ext := range []string{"*.hcl", "*.tau"}` of
`findModuleFiles` (lines 156-173): the pattern is `filepath.Join(dst, ext)`
(on a system with `/` as separator, where `filepath.Join` is `path.Join`), and
a failing `filepath.Glob` ends the call with its error. -/
def forExtensions (fs : FileSystem) (dst : String) :
    List String → List String → Except Err (List String)
  | [], matched => .ok matched
  | ext :: rest, matched =>
      match fs.glob (Join [dst, ext]) with
      | .error err => .error err
      | .ok m =>
          match appendFiles fs m matched with
          | .error err => .error err
          | .ok matched1 => forExtensions fs dst rest matched1

/-- The method `loader.findModuleFiles(dst)`. -/
def findModuleFiles (fs : FileSystem) (dst : String) : Except Err (List String) :=
  forExtensions fs dst ["*.hcl", "*.tau"] []

/-! ## Vocabulary for the loader's properties -/

/-- The hashes registered in `l.loaded`. -/
def keys (loaded : List (String × Module)) : List String :=
  loaded.map Prod.fst

/-- The sources `loadModuleDependencies(m)` asks `loadModules` for when no
call fails: one per declared dependency, in declaration order. -/
def depSources (m : Module) : List String :=
  m.dependencies.map Dependency.source

/-- The module files a traversal can meet from the list `roots`: those of the
roots, and those discovered at the source of a dependency of one already met.
A file is given by its hash and its declared dependencies. -/
inductive Reachable (disc : Discovery) (roots : List Module) :
    String → List Dependency → Prop
  | root (m : Module) : m ∈ roots → Reachable disc roots m.hash m.dependencies
  | dep (h : String) (ds : List Dependency) (d : Dependency)
      (files : List ModuleFile) (f : ModuleFile) :
      Reachable disc roots h ds → d ∈ ds → disc d.source = .ok files → f ∈ files →
      Reachable disc roots f.hash f.dependencies

/-- A sequence of `loadModules` calls agrees with the result of a run:
after success every call succeeded; after the error `e` the last call is the
one that failed, with `e`, and every earlier one succeeded. -/
def FailFast {α : Type} (disc : Discovery) : Except Err α → List String → Prop
  | .ok _, srcs => ∀ s ∈ srcs, ∃ files, disc s = .ok files
  | .error e, srcs =>
      ∃ pre s, srcs = pre ++ [s] ∧ disc s = .error e ∧
        ∀ s1 ∈ pre, ∃ files, disc s1 = .ok files

/-- What one step of the traversal, run from the loader state `l` and ending
in `l1` with result `r`, does to the registry and to the trace: no hash leaves
the registry; the `loadModules` calls of the step stop at the first failure,
whose error is the result; and these calls are, in order, the declared
dependencies of the modules `loadModuleDependencies` was called for (all of
them when the step succeeds). -/
structure RunSpec {α : Type} (disc : Discovery) (l : Loader) (r : Except Err α)
    (l1 : Loader) : Prop where
  keys_mono : ∀ h ∈ keys l.loaded, h ∈ keys l1.loaded
  trace : ∃ evs, l1.trace = l.trace ++ evs
    ∧ FailFast disc r (fetches evs)
    ∧ fetches evs <+: (visits evs).flatMap depSources
    ∧ ∀ a, r = .ok a → fetches evs = (visits evs).flatMap depSources

/-- How many hashes of the finite set `S` are not yet registered. -/
def unseen (S : Finset String) (loaded : List (String × Module)) : Nat :=
  (S.filter fun h => h ∉ keys loaded).card

/-! ## Vocabulary for the properties of `path.Clean` -/

/-- The elements `es` written one after the other with a slash between
two of them. -/
def sepJoin : List (List Char) → List Char
  | [] => []
  | [e] => e
  | e :: e2 :: rest => e ++ '/' :: sepJoin (e2 :: rest)

/-- The elements of a path: the runs of characters between its slashes. -/
def splitSlash : List Char → List (List Char)
  | [] => [[]]
  | c :: rest =>
      if c = '/' then [] :: splitSlash rest
      else
        match splitSlash rest with
        | [] => [[c]]
        | e :: es => (c :: e) :: es

/-- What `path.Clean` has kept of the elements read so far: the number of
leading `..` elements and the elements after them. -/
structure Kept where
  ups : Nat
  elems : List (List Char)
deriving DecidableEq, Repr

/-- The leading `..` elements. -/
def dots (n : Nat) : List (List Char) :=
  List.replicate n ['.', '.']

/-- The output buffer that stands for `k`. -/
def render (rooted : Bool) (k : Kept) : List Char :=
  (if rooted then ['/'] else []) ++ sepJoin (dots k.ups ++ k.elems)

/-- The value of `dotdot` that stands for `k`. -/
def mark (rooted : Bool) (k : Kept) : Nat :=
  (if rooted then 1 else 0) + (sepJoin (dots k.ups)).length

/-- The effect of reading one element: an empty element or `.` is dropped,
`..` removes the last kept element (or is kept itself when there is none and
the path is not rooted), any other element is kept. -/
def keep (rooted : Bool) (k : Kept) (e : List Char) : Kept :=
  if e = [] ∨ e = ['.'] then k
  else if e = ['.', '.'] then
    if k.elems ≠ [] then { k with elems := k.elems.dropLast }
    else if rooted then k
    else { k with ups := k.ups + 1 }
  else { k with elems := k.elems ++ [e] }

/-- An element that `path.Clean` copies: not empty, without slash, and
neither `.` nor `..`. -/
def IsReal (e : List Char) : Prop :=
  e ≠ [] ∧ '/' ∉ e ∧ e ≠ ['.'] ∧ e ≠ ['.', '.']

/-- The states of `path.Clean`: the kept elements are real, and a rooted path
keeps no leading `..`. -/
def Kept.Valid (rooted : Bool) (k : Kept) : Prop :=
  (∀ e ∈ k.elems, IsReal e) ∧ (rooted = true → k.ups = 0)

/-- The last step of `path.Clean`: an empty result becomes `.`. -/
def finish (out : List Char) : List Char :=
  if out.length = 0 then ['.'] else out

/-- Whether a path starts with a slash. -/
def isRooted (p : List Char) : Bool :=
  p[0]? = some '/'

/-- The elements kept of a whole path, given by its elements in order. -/
def normalize (rooted : Bool) (es : List (List Char)) : Kept :=
  es.foldl (keep rooted) ⟨0, []⟩

/-! ## Vocabulary for the properties of `findModuleFiles` -/

/-- An entry of the destination directory: its name and whether it is a
directory. -/
structure DirEntry where
  name : String
  isDir : Bool
deriving DecidableEq, Repr

/-- The entries of a directory in the order in which `filepath.Glob` goes
through them: sorted by name (`Readdirnames` followed by `sort.Strings`). -/
def readdirnames (dir : List DirEntry) : List DirEntry :=
  dir.insertionSort fun a b => a.name.data ≤ b.name.data

/-- Go `filepath.Match(pattern, name)` for the two kinds of pattern that occur
here and a name without separator: `*` followed by literal characters matches
the names that end with these characters; a pattern of literal characters
matches itself. -/
def Match (pattern name : String) : Bool :=
  match pattern.data with
  | '*' :: suffix => suffix.isSuffixOf name.data
  | literal => literal == name.data

/-- The entries of a directory whose name matches the pattern, in sorted
order. -/
def matching (dir : List DirEntry) (pattern : String) : List DirEntry :=
  (readdirnames dir).filter fun e => Match pattern e.name

/-- The file system shows `dst` as a directory with the entries `dir`, the
entry called `name` having the path `pathOf name`: for each of the two
patterns `filepath.Glob` finds the paths of the matching entries of `dir`, in
sorted order, and `os.Stat` succeeds on the path of every entry and tells
whether it is a directory. -/
structure Shows (fs : FileSystem) (dst : String) (pathOf : String → String)
    (dir : List DirEntry) : Prop where
  glob : ∀ ext, ext = "*.hcl" ∨ ext = "*.tau" →
    fs.glob (Join [dst, ext]) = .ok ((matching dir ext).map fun e => pathOf e.name)
  stat : ∀ e ∈ dir, fs.stat (pathOf e.name) = .ok e.isDir

/-- An entry `findModuleFiles` selects for the pattern `*` ++ `suffix`. -/
def isModuleFile (suffix : String) (e : DirEntry) : Bool :=
  !e.isDir && suffix.data.isSuffixOf e.name.data

/-! ## Concrete dependency graphs -/

/-- Two modules that depend on each other with the same specifiers: the source
`"a"` holds `A`, which depends on `"b"`; the source `"b"` holds `B`, which
depends on `"a"`. -/
def cycleGraph : Discovery := fun s =>
  if s = "a" then .ok [⟨"A", [⟨"b", "b"⟩]⟩]
  else if s = "b" then .ok [⟨"B", [⟨"a", "a"⟩]⟩]
  else .error ("cannot fetch " ++ s)

/-- The module `A` of `cycleGraph` as a first `loadModules("a")` returns it. -/
def cycleRoot : Module := ⟨0, "A", [⟨"b", "b"⟩]⟩

/-- The diamond: the root source holds `A` and `B`, both declare a dependency
with the source string `"csrc"`, which holds `C`. -/
def diamondGraph : Discovery := fun s =>
  if s = "root" then .ok [⟨"A", [⟨"c", "csrc"⟩]⟩, ⟨"B", [⟨"c", "csrc"⟩]⟩]
  else if s = "csrc" then .ok [⟨"C", []⟩]
  else .error ("cannot fetch " ++ s)

/-- A root module with two dependencies, the first of which cannot be
fetched. -/
def brokenGraph : Discovery := fun s =>
  if s = "root" then .ok [⟨"A", [⟨"x", "xsrc"⟩, ⟨"y", "ysrc"⟩]⟩]
  else if s = "ysrc" then .ok [⟨"Y", []⟩]
  else .error ("cannot fetch " ++ s)

/-- The root source holds `A` and `B`, and `A` declares a dependency on the
root source itself. -/
def siblingGraph : Discovery := fun s =>
  if s = "root" then .ok [⟨"A", [⟨"r", "root"⟩]⟩, ⟨"B", []⟩]
  else .error ("cannot fetch " ++ s)

/-- The root source holds `A`, which depends on the source `"bsrc"` holding
`B`; the first of the two dependencies of `B` cannot be fetched. -/
def nestedBrokenGraph : Discovery := fun s =>
  if s = "root" then .ok [⟨"A", [⟨"b", "bsrc"⟩]⟩]
  else if s = "bsrc" then .ok [⟨"B", [⟨"x", "xsrc"⟩, ⟨"y", "ysrc"⟩]⟩]
  else if s = "ysrc" then .ok [⟨"Y", []⟩]
  else .error ("cannot fetch " ++ s)

/-- An environment in which the source is detected as the local file
`/project/sub/module.ext`; `/project/sub` and `/project` are directories. -/
def fileEnv : Env :=
  { getwd := .ok "/work"
    detect := fun _ _ => .ok "file:///project/sub/module.ext"
    stat := fun q =>
      if q = "/project/sub/module.ext" then .ok false
      else if q = "/project/sub" ∨ q = "/project" then .ok true
      else .error ("stat " ++ q ++ ": no such file or directory") }

/-- The directory `/work/d` with two module files, a directory whose name ends
in `.hcl`, and another file. -/
def moduleDir : List DirEntry :=
  [⟨"b.tau", false⟩, ⟨"a.hcl", false⟩, ⟨"sub.hcl", true⟩, ⟨"notes.txt", false⟩]

/-- A file system that shows `/work/d` with the entries `moduleDir`. -/
def moduleFS : FileSystem :=
  { glob := fun p =>
      if p = "/work/d/*.hcl" then .ok ["/work/d/a.hcl", "/work/d/sub.hcl"]
      else if p = "/work/d/*.tau" then .ok ["/work/d/b.tau"]
      else .ok []
    stat := fun q =>
      if q = "/work/d/sub.hcl" then .ok true
      else if q = "/work/d/a.hcl" ∨ q = "/work/d/b.tau" ∨ q = "/work/d/notes.txt"
        then .ok false
      else .error ("stat " ++ q ++ ": no such file or directory") }

/-- The directory `d` holds the file `a.hcl` and the symbolic link
`broken.hcl`, whose target does not exist: `filepath.Glob` lists both and
`os.Stat` fails on the link. -/
def danglingFS : FileSystem :=
  { glob := fun p =>
      if p = "d/*.hcl" then .ok ["d/a.hcl", "d/broken.hcl"] else .ok []
    stat := fun q =>
      if q = "d/a.hcl" then .ok false
      else .error ("stat " ++ q ++ ": no such file or directory") }

/-- The empty directory `d[`: the pattern `d[/*.hcl` is malformed and
`filepath.Glob` returns `ErrBadPattern`. -/
def badPatternFS : FileSystem :=
  { glob := fun p =>
      if p = "d[/*.hcl" ∨ p = "d[/*.tau" then .error "syntax error in pattern"
      else .ok []
    stat := fun q => .error ("stat " ++ q ++ ": no such file or directory") }

/-! ## Properties of `getExtraArgs` -/

theorem hasPrefix_iff (s p : String) : hasPrefix s p = true ↔ p.data <+: s.data := by
  unfold hasPrefix
  exact List.isPrefixOf_iff_prefix

theorem markInvalid_eq (arg : String) (invalidArgs : List String) (b : Bool) :
    markInvalid arg invalidArgs b = (b || invalidArgs.any fun ia => hasPrefix arg ia) := by
  induction invalidArgs generalizing b with
  | nil => simp [markInvalid]
  | cons ia rest ih =>
      rw [markInvalid, ih]
      cases h : hasPrefix arg ia <;> cases b <;> simp [h]

theorem extraArgsLoop_eq (invalidArgs args extraArgs : List String) :
    extraArgsLoop invalidArgs args extraArgs
      = extraArgs ++ (args.map dashed).filter
          (fun a => !(invalidArgs.any fun ia => hasPrefix a ia)) := by
  induction args generalizing extraArgs with
  | nil => simp [extraArgsLoop]
  | cons arg rest ih =>
      simp only [extraArgsLoop, ih, markInvalid_eq, Bool.false_or, List.map_cons]
      cases h : (invalidArgs.any fun ia => hasPrefix (dashed arg) ia) <;>
        simp [List.filter_cons, h]

/-- C8: `getExtraArgs(invalidArgs...)` is, in the original order, the list of
the strings `"-" ++ arg` for `arg` in `terraformArgs` of which no element of
`invalidArgs` is a prefix; every returned string starts with `"-"`, none has
an invalid argument as prefix, and with no invalid argument nothing is
dropped. -/
theorem getExtraArgs_spec (terraformArgs invalidArgs : List String) :
    getExtraArgs terraformArgs invalidArgs
        = (terraformArgs.map fun arg => "-" ++ arg).filter
            (fun a => decide (∀ ia ∈ invalidArgs, ¬ ia.data <+: a.data))
      ∧ (∀ a ∈ getExtraArgs terraformArgs invalidArgs,
          "-".data <+: a.data ∧ ∀ ia ∈ invalidArgs, ¬ ia.data <+: a.data)
      ∧ getExtraArgs terraformArgs [] = terraformArgs.map (fun arg => "-" ++ arg)
      ∧ (getExtraArgs terraformArgs []).length = terraformArgs.length := by
  have key : getExtraArgs terraformArgs invalidArgs
        = (terraformArgs.map fun arg => "-" ++ arg).filter
            (fun a => decide (∀ ia ∈ invalidArgs, ¬ ia.data <+: a.data)) := by
    unfold getExtraArgs
    rw [extraArgsLoop_eq, List.nil_append]
    have hd : dashed = fun arg => "-" ++ arg := rfl
    rw [hd]
    apply List.filter_congr
    intro a _
    rw [Bool.eq_iff_iff]
    simp [hasPrefix_iff]
  have key0 : getExtraArgs terraformArgs [] = terraformArgs.map (fun arg => "-" ++ arg) := by
    unfold getExtraArgs
    rw [extraArgsLoop_eq]
    simp
    intro a _
    rfl
  refine ⟨key, ?_, key0, by rw [key0, List.length_map]⟩
  intro a ha
  rw [key, List.mem_filter, List.mem_map] at ha
  obtain ⟨⟨arg, _, rfl⟩, hf⟩ := ha
  refine ⟨?_, by simpa using hf⟩
  exact ⟨arg.data, rfl⟩

/-! ## Basic facts about the loader's steps -/

theorem fetches_append (a b : List Event) : fetches (a ++ b) = fetches a ++ fetches b := by
  simp [fetches, List.filterMap_append]

theorem visits_append (a b : List Event) : visits (a ++ b) = visits a ++ visits b := by
  simp [visits, List.filterMap_append]

theorem chains_append (a b : List Event) : chains (a ++ b) = chains a ++ chains b := by
  simp [chains, List.filterMap_append]

theorem fetches_map_fetch (srcs : List String) : fetches (srcs.map Event.fetch) = srcs := by
  induction srcs with
  | nil => rfl
  | cons s rest ih =>
      have h : fetches (Event.fetch s :: rest.map Event.fetch)
          = s :: fetches (rest.map Event.fetch) := rfl
      rw [List.map_cons, h, ih]

theorem visits_map_fetch (srcs : List String) : visits (srcs.map Event.fetch) = [] := by
  induction srcs with
  | nil => rfl
  | cons s rest ih =>
      have h : visits (Event.fetch s :: rest.map Event.fetch)
          = visits (rest.map Event.fetch) := rfl
      rw [List.map_cons, h, ih]

theorem chains_map_fetch (srcs : List String) : chains (srcs.map Event.fetch) = [] := by
  induction srcs with
  | nil => rfl
  | cons s rest ih =>
      have h : chains (Event.fetch s :: rest.map Event.fetch)
          = chains (rest.map Event.fetch) := rfl
      rw [List.map_cons, h, ih]

theorem lookup_isNone_iff (loaded : List (String × Module)) (h : String) :
    (lookup loaded h).isNone = true ↔ h ∉ keys loaded := by
  induction loaded with
  | nil => simp [lookup, keys]
  | cons p rest ih =>
      obtain ⟨k, m⟩ := p
      by_cases hk : k = h
      · simp [lookup, keys, hk]
      · have hk1 : ¬ h = k := fun e => hk e.symm
        simp only [lookup, hk, if_false, ih, keys, List.map_cons, List.mem_cons, hk1, false_or]

theorem lookup_eq_none_iff (loaded : List (String × Module)) (h : String) :
    lookup loaded h = none ↔ h ∉ keys loaded := by
  rw [← lookup_isNone_iff, Option.isNone_iff_eq_none]

theorem mem_allocate (n : Nat) (files : List ModuleFile) (m : Module)
    (hm : m ∈ allocate n files) :
    ∃ f ∈ files, f.hash = m.hash ∧ f.dependencies = m.dependencies := by
  induction files generalizing n with
  | nil => simp [allocate] at hm
  | cons f rest ih =>
      simp only [allocate, List.mem_cons] at hm
      rcases hm with rfl | hm
      · exact ⟨f, List.mem_cons_self _ _, rfl, rfl⟩
      · obtain ⟨g, hg, h1, h2⟩ := ih (n + 1) hm
        exact ⟨g, List.mem_cons_of_mem _ hg, h1, h2⟩

theorem loadModules_frame (disc : Discovery) (src : String) (l : Loader) :
    (loadModules disc src l).2.loaded = l.loaded
      ∧ (loadModules disc src l).2.trace = l.trace ++ [Event.fetch src]
      ∧ (loadModules disc src l).2.heap = l.heap := by
  unfold loadModules
  cases disc src <;> exact ⟨rfl, rfl, rfl⟩

theorem loadModules_ok (disc : Discovery) (src : String) (l : Loader) (ms : List Module)
    (h : (loadModules disc src l).1 = .ok ms) :
    ∃ files, disc src = .ok files ∧ ms = allocate l.nextId files := by
  unfold loadModules at h
  cases hd : disc src with
  | error e => rw [hd] at h; cases h
  | ok files =>
      rw [hd] at h
      injection h with h
      exact ⟨files, rfl, h.symm⟩

theorem loadModules_error (disc : Discovery) (src : String) (l : Loader) (e : Err)
    (h : (loadModules disc src l).1 = .error e) : disc src = .error e := by
  unfold loadModules at h
  cases hd : disc src with
  | error e1 =>
      rw [hd] at h
      injection h with h
      rw [h]
  | ok files => rw [hd] at h; cases h

theorem wire_frame (depName : String) (mods deps : List Module) (l : Loader) :
    (wire depName mods deps l).2.loaded = l.loaded
      ∧ (wire depName mods deps l).2.trace = l.trace
      ∧ (wire depName mods deps l).1
          = deps ++ mods.filter fun m => (lookup l.loaded m.hash).isNone := by
  induction mods generalizing deps l with
  | nil => simp [wire]
  | cons m rest ih =>
      cases hl : lookup l.loaded m.hash with
      | none =>
          have := ih (deps ++ [m]) { l with heap := (m.id, depName, m) :: l.heap }
          simp only [wire, hl, List.filter_cons, Option.isNone_none, if_true]
          simpa using this
      | some c =>
          have := ih deps { l with heap := (c.id, depName, c) :: l.heap }
          simp only [wire, hl, List.filter_cons, Option.isNone_some]
          simpa using this

theorem failFast_cons {α : Type} (disc : Discovery) (r : Except Err α) (s : String)
    (srcs : List String) (files : List ModuleFile) (hs : disc s = .ok files)
    (h : FailFast disc r srcs) : FailFast disc r (s :: srcs) := by
  cases r with
  | ok a =>
      intro s1 hs1
      rcases List.mem_cons.1 hs1 with rfl | hs1
      · exact ⟨files, hs⟩
      · exact h s1 hs1
  | error e =>
      obtain ⟨pre, t, hsrc, ht, hpre⟩ := h
      refine ⟨s :: pre, t, by rw [hsrc, List.cons_append], ht, ?_⟩
      intro s1 hs1
      rcases List.mem_cons.1 hs1 with rfl | hs1
      · exact ⟨files, hs⟩
      · exact hpre s1 hs1

theorem failFast_append {α β : Type} (disc : Discovery) (a : α) (r : Except Err β)
    (xs ys : List String) (hx : FailFast disc (Except.ok a : Except Err α) xs)
    (hy : FailFast disc r ys) : FailFast disc r (xs ++ ys) := by
  induction xs with
  | nil => simpa using hy
  | cons s rest ih =>
      obtain ⟨files, hs⟩ := hx s (List.mem_cons_self _ _)
      exact failFast_cons disc r s (rest ++ ys) files hs
        (ih fun s1 hs1 => hx s1 (List.mem_cons_of_mem _ hs1))

/-- What the loop over the declared dependencies does: the registry is not
touched, one `loadModules` call is made per dependency in declaration order
up to the first failure, and on success the returned modules are those of the
accumulator and modules discovered at the dependencies' sources. -/
theorem loadEach_run (disc : Discovery) (ds : List Dependency) (acc : List Module)
    (l : Loader) :
    (loadEach disc ds acc l).2.loaded = l.loaded ∧
    ∃ srcs, (loadEach disc ds acc l).2.trace = l.trace ++ srcs.map Event.fetch
      ∧ srcs <+: ds.map Dependency.source
      ∧ FailFast disc (loadEach disc ds acc l).1 srcs
      ∧ ∀ out, (loadEach disc ds acc l).1 = .ok out →
          srcs = ds.map Dependency.source ∧
          ∀ m ∈ out, m ∈ acc ∨ ∃ d ∈ ds, ∃ files, disc d.source = .ok files ∧
            ∃ f ∈ files, f.hash = m.hash ∧ f.dependencies = m.dependencies := by
  induction ds generalizing acc l with
  | nil =>
      refine ⟨rfl, [], by simp [loadEach], List.prefix_refl _, ?_, ?_⟩
      · intro s hs; cases hs
      · intro out hout
        simp only [loadEach] at hout
        injection hout with hout
        subst hout
        exact ⟨rfl, fun m hm => Or.inl hm⟩
  | cons dep rest ih =>
      rw [loadEach]
      have hf := loadModules_frame disc dep.source l
      have hok := loadModules_ok disc dep.source l
      have herr := loadModules_error disc dep.source l
      cases hlm : loadModules disc dep.source l with
      | mk r1 l1 =>
      rw [hlm] at hf hok herr
      obtain ⟨hf1, hf2, -⟩ := hf
      cases r1 with
      | error e =>
          refine ⟨hf1, [dep.source], by simpa using hf2, by simp, ?_, ?_⟩
          · exact ⟨[], dep.source, rfl, herr e rfl, fun s hs => by cases hs⟩
          · intro out hout; cases hout
      | ok ms =>
          obtain ⟨files, hfiles, hms⟩ := hok ms rfl
          have hw := wire_frame dep.name ms acc l1
          obtain ⟨ih1, srcs, ih2, ih3, ih4, ih5⟩ :=
            ih (wire dep.name ms acc l1).1 (wire dep.name ms acc l1).2
          refine ⟨by simp only; rw [ih1, hw.1, hf1], dep.source :: srcs, ?_, ?_, ?_, ?_⟩
          · simp only
            rw [ih2, hw.2.1, hf2]
            simp
          · simpa [List.map_cons] using (List.prefix_cons_inj dep.source).2 ih3
          · exact failFast_cons disc _ dep.source srcs files hfiles ih4
          · intro out hout
            obtain ⟨h1, h2⟩ := ih5 out hout
            refine ⟨by rw [h1, List.map_cons], ?_⟩
            intro m hm
            rcases h2 m hm with hacc | ⟨d, hd, fs, hfs, f, hf, hh⟩
            · rw [hw.2.2, List.mem_append] at hacc
              rcases hacc with hacc | hnew
              · exact Or.inl hacc
              · have hmem : m ∈ allocate l.nextId files := by
                  rw [← hms]; exact (List.mem_filter.1 hnew).1
                obtain ⟨f, hf, hh⟩ := mem_allocate _ _ _ hmem
                exact Or.inr ⟨dep, List.mem_cons_self _ _, files, hfiles, f, hf, hh⟩
            · exact Or.inr ⟨d, List.mem_cons_of_mem _ hd, fs, hfs, f, hf, hh⟩

theorem loadModuleDependencies_run (disc : Discovery) (mdl : Module) (l : Loader) :
    (loadModuleDependencies disc mdl l).2.loaded = (mdl.hash, mdl) :: l.loaded ∧
    ∃ srcs, (loadModuleDependencies disc mdl l).2.trace
          = l.trace ++ Event.visit mdl :: srcs.map Event.fetch
      ∧ srcs <+: depSources mdl
      ∧ FailFast disc (loadModuleDependencies disc mdl l).1 srcs
      ∧ ∀ out, (loadModuleDependencies disc mdl l).1 = .ok out →
          srcs = depSources mdl ∧
          ∀ m ∈ out, ∃ d ∈ mdl.dependencies, ∃ files, disc d.source = .ok files ∧
            ∃ f ∈ files, f.hash = m.hash ∧ f.dependencies = m.dependencies := by
  unfold loadModuleDependencies
  obtain ⟨h1, srcs, h2, h3, h4, h5⟩ := loadEach_run disc mdl.dependencies []
    { l with loaded := (mdl.hash, mdl) :: l.loaded
             trace := l.trace ++ [Event.visit mdl] }
  refine ⟨h1, srcs, ?_, h3, h4, ?_⟩
  · rw [h2]; simp
  · intro out hout
    obtain ⟨h6, h7⟩ := h5 out hout
    refine ⟨h6, fun m hm => ?_⟩
    rcases h7 m hm with h | h
    · cases h
    · exact h

theorem RunSpec.trans {α β : Type} {disc : Discovery} {l l1 l2 : Loader} (a : α)
    {r : Except Err β} (h1 : RunSpec disc l (Except.ok a : Except Err α) l1)
    (h2 : RunSpec disc l1 r l2) : RunSpec disc l r l2 := by
  obtain ⟨k1, evs1, t1, f1, -, e1⟩ := h1
  obtain ⟨k2, evs2, t2, f2, p2, e2⟩ := h2
  have e1 := e1 a rfl
  refine ⟨fun h hh => k2 h (k1 h hh), evs1 ++ evs2, ?_, ?_, ?_, ?_⟩
  · rw [t2, t1, List.append_assoc]
  · rw [fetches_append]
    exact failFast_append disc a r _ _ f1 f2
  · rw [fetches_append, visits_append, List.flatMap_append, e1]
    exact (List.prefix_append_right_inj _).2 p2
  · intro b hb
    rw [fetches_append, visits_append, List.flatMap_append, e1, e2 b hb]

theorem RunSpec.error {α β : Type} {disc : Discovery} {l l1 : Loader} {e : Err}
    (h : RunSpec disc l (Except.error e : Except Err α) l1) :
    RunSpec disc l (Except.error e : Except Err β) l1 := by
  obtain ⟨k, evs, t, f, p, -⟩ := h
  exact ⟨k, evs, t, f, p, fun a ha => by cases ha⟩

/-- Taking a module from `remaining` and calling `loadModuleDependencies` on
it is a step of the traversal. -/
theorem RunSpec.visit (disc : Discovery) (mdl : Module) (stack : List String) (l : Loader) :
    RunSpec disc l
      (loadModuleDependencies disc mdl
        { l with trace := l.trace ++ [Event.chain (mdl.hash :: stack)] }).1
      (loadModuleDependencies disc mdl
        { l with trace := l.trace ++ [Event.chain (mdl.hash :: stack)] }).2 := by
  obtain ⟨h1, srcs, h2, h3, h4, h5⟩ := loadModuleDependencies_run disc mdl
    { l with trace := l.trace ++ [Event.chain (mdl.hash :: stack)] }
  have hf : fetches (Event.chain (mdl.hash :: stack) :: Event.visit mdl :: srcs.map Event.fetch)
      = srcs := by
    have : fetches (Event.chain (mdl.hash :: stack) :: Event.visit mdl :: srcs.map Event.fetch)
      = fetches (srcs.map Event.fetch) := rfl
    rw [this, fetches_map_fetch]
  have hv : visits (Event.chain (mdl.hash :: stack) :: Event.visit mdl :: srcs.map Event.fetch)
      = [mdl] := by
    have : visits (Event.chain (mdl.hash :: stack) :: Event.visit mdl :: srcs.map Event.fetch)
      = mdl :: visits (srcs.map Event.fetch) := rfl
    rw [this, visits_map_fetch]
  refine ⟨?_, Event.chain (mdl.hash :: stack) :: Event.visit mdl :: srcs.map Event.fetch,
    ?_, ?_, ?_, ?_⟩
  · intro h hh
    rw [h1]
    exact List.mem_cons_of_mem _ hh
  · rw [h2]; simp
  · rw [hf]; exact h4
  · rw [hf, hv]; simpa using h3
  · intro a ha
    rw [hf, hv, (h5 a ha).1]; simp

theorem RunSpec.refl (disc : Discovery) (l : Loader) :
    RunSpec disc l (Except.ok () : Except Err Unit) l := by
  refine ⟨fun _ h => h, [], by simp, ?_, List.prefix_refl _, fun _ _ => rfl⟩
  intro s hs
  cases hs

theorem forRemaining_run (disc : Discovery)
    (recurse : List Module → List String → Loader → Option (Except Err Unit × Loader))
    (hrec : ∀ deps st l r l1, recurse deps st l = some (r, l1) → RunSpec disc l r l1)
    (stack : List String) (remaining : List Module) (l : Loader)
    (r : Except Err Unit) (l1 : Loader)
    (h : forRemaining disc recurse stack remaining l = some (r, l1)) :
    RunSpec disc l r l1 := by
  induction remaining generalizing l with
  | nil =>
      simp only [forRemaining, Option.some.injEq, Prod.mk.injEq] at h
      obtain ⟨rfl, rfl⟩ := h
      exact RunSpec.refl disc l
  | cons mdl rest ih =>
      rw [forRemaining] at h
      have hv := RunSpec.visit disc mdl stack l
      cases hlm : loadModuleDependencies disc mdl
          { l with trace := l.trace ++ [Event.chain (mdl.hash :: stack)] } with
      | mk r1 la =>
      rw [hlm] at h hv
      cases r1 with
      | error e =>
          simp only [Option.some.injEq, Prod.mk.injEq] at h
          obtain ⟨rfl, rfl⟩ := h
          exact hv.error
      | ok deps =>
          simp only at h
          cases hr : recurse deps (mdl.hash :: stack) la with
          | none => rw [hr] at h; cases h
          | some p =>
              obtain ⟨r2, lb⟩ := p
              have h2 := hrec _ _ _ _ _ hr
              rw [hr] at h
              cases r2 with
              | error e =>
                  simp only [Option.some.injEq, Prod.mk.injEq] at h
                  obtain ⟨rfl, rfl⟩ := h
                  exact RunSpec.trans deps hv h2
              | ok u =>
                  simp only at h
                  exact RunSpec.trans deps hv (RunSpec.trans u h2 (ih lb h))

/-- Every finished run of `loadDependencies` is a step of the traversal. -/
theorem loadDependencies_run (disc : Discovery) (fuel : Nat) (modules : List Module)
    (depth : Int) (stack : List String) (l : Loader) (r : Except Err Unit) (l1 : Loader)
    (h : loadDependencies disc fuel modules depth stack l = some (r, l1)) :
    RunSpec disc l r l1 := by
  induction fuel generalizing modules depth stack l r l1 with
  | zero => simp [loadDependencies] at h
  | succ n ih =>
      rw [loadDependencies] at h
      exact forRemaining_run disc _ (fun deps st la ra lb hh => ih _ _ _ _ _ _ hh) _ _ _ _ _ h

/-! ## Chains of nested calls and termination -/

theorem chains_visit_step (mdl : Module) (stack : List String) (srcs : List String) :
    chains (Event.chain (mdl.hash :: stack) :: Event.visit mdl :: srcs.map Event.fetch)
      = [mdl.hash :: stack] := by
  have : chains (Event.chain (mdl.hash :: stack) :: Event.visit mdl :: srcs.map Event.fetch)
      = (mdl.hash :: stack) :: chains (srcs.map Event.fetch) := rfl
  rw [this, chains_map_fetch]

theorem forRemaining_chains (disc : Discovery)
    (recurse : List Module → List String → Loader → Option (Except Err Unit × Loader))
    (hrun : ∀ deps st l r l1, recurse deps st l = some (r, l1) → RunSpec disc l r l1)
    (hrec : ∀ deps st l r l1, recurse deps st l = some (r, l1) → st.Nodup →
      (∀ h ∈ st, h ∈ keys l.loaded) →
      ∃ evs, l1.trace = l.trace ++ evs ∧ ∀ c ∈ chains evs, c.Nodup)
    (stack : List String) (hnd : stack.Nodup) (remaining : List Module)
    (hrem : ∀ m ∈ remaining, m.hash ∉ stack) (l : Loader)
    (hst : ∀ h ∈ stack, h ∈ keys l.loaded) (r : Except Err Unit) (l1 : Loader)
    (h : forRemaining disc recurse stack remaining l = some (r, l1)) :
    ∃ evs, l1.trace = l.trace ++ evs ∧ ∀ c ∈ chains evs, c.Nodup := by
  induction remaining generalizing l with
  | nil =>
      simp only [forRemaining, Option.some.injEq, Prod.mk.injEq] at h
      obtain ⟨-, rfl⟩ := h
      exact ⟨[], by simp, fun c hc => by cases hc⟩
  | cons mdl rest ih =>
      rw [forRemaining] at h
      obtain ⟨h1, srcs, h2, -⟩ := loadModuleDependencies_run disc mdl
        { l with trace := l.trace ++ [Event.chain (mdl.hash :: stack)] }
      have hfresh : mdl.hash ∉ stack := hrem mdl (List.mem_cons_self _ _)
      have hnd1 : (mdl.hash :: stack).Nodup := List.nodup_cons.2 ⟨hfresh, hnd⟩
      have hstep : ∀ c ∈ chains (Event.chain (mdl.hash :: stack) :: Event.visit mdl ::
          srcs.map Event.fetch), c.Nodup := by
        intro c hc
        rw [chains_visit_step, List.mem_singleton] at hc
        rw [hc]; exact hnd1
      cases hlm : loadModuleDependencies disc mdl
          { l with trace := l.trace ++ [Event.chain (mdl.hash :: stack)] } with
      | mk r1 la =>
      rw [hlm] at h h1 h2
      simp only [List.append_assoc, List.singleton_append] at h2
      cases r1 with
      | error e =>
          simp only [Option.some.injEq, Prod.mk.injEq] at h
          obtain ⟨-, rfl⟩ := h
          exact ⟨_, h2, hstep⟩
      | ok deps =>
          simp only at h
          have hst1 : ∀ h ∈ mdl.hash :: stack, h ∈ keys la.loaded := by
            intro k hk
            rw [h1]
            rcases List.mem_cons.1 hk with rfl | hk
            · exact List.mem_cons_self _ _
            · exact List.mem_cons_of_mem _ (hst k hk)
          cases hr : recurse deps (mdl.hash :: stack) la with
          | none => rw [hr] at h; cases h
          | some p =>
              obtain ⟨r2, lb⟩ := p
              obtain ⟨evs2, t2, c2⟩ := hrec _ _ _ _ _ hr hnd1 hst1
              have k2 := (hrun _ _ _ _ _ hr).keys_mono
              rw [hr] at h
              cases r2 with
              | error e =>
                  simp only [Option.some.injEq, Prod.mk.injEq] at h
                  obtain ⟨-, rfl⟩ := h
                  refine ⟨(Event.chain (mdl.hash :: stack) :: Event.visit mdl :: srcs.map Event.fetch) ++ evs2,
                    by rw [t2, h2, List.append_assoc], ?_⟩
                  intro c hc
                  rw [chains_append, List.mem_append] at hc
                  exact hc.elim (hstep c) (c2 c)
              | ok u =>
                  simp only at h
                  obtain ⟨evs3, t3, c3⟩ := ih
                    (fun m hm => hrem m (List.mem_cons_of_mem _ hm)) lb
                    (fun k hk => k2 k (hst1 k (List.mem_cons_of_mem _ hk))) h
                  refine ⟨(Event.chain (mdl.hash :: stack) :: Event.visit mdl :: srcs.map Event.fetch) ++ (evs2 ++ evs3),
                    by rw [t3, t2, h2, List.append_assoc, List.append_assoc], ?_⟩
                  intro c hc
                  rw [chains_append, chains_append, List.mem_append, List.mem_append] at hc
                  rcases hc with hc | hc | hc
                  · exact hstep c hc
                  · exact c2 c hc
                  · exact c3 c hc

/-- Along every chain of nested `loadDependencies` calls the hashes of the
modules being processed are pairwise distinct, as soon as this holds of the
enclosing chain and its hashes are registered. -/
theorem loadDependencies_chains (disc : Discovery) (fuel : Nat) (modules : List Module)
    (depth : Int) (stack : List String) (l : Loader) (r : Except Err Unit) (l1 : Loader)
    (h : loadDependencies disc fuel modules depth stack l = some (r, l1))
    (hnd : stack.Nodup) (hst : ∀ h ∈ stack, h ∈ keys l.loaded) :
    ∃ evs, l1.trace = l.trace ++ evs ∧ ∀ c ∈ chains evs, c.Nodup := by
  induction fuel generalizing modules depth stack l r l1 with
  | zero => simp [loadDependencies] at h
  | succ n ih =>
      rw [loadDependencies] at h
      refine forRemaining_chains disc _
        (fun deps st la ra lb hh => loadDependencies_run disc n deps _ st la ra lb hh)
        (fun deps st la ra lb hh h1 h2 => ih deps _ st la ra lb hh h1 h2)
        stack hnd _ ?_ l hst r l1 h
      intro m hm hmem
      have := (List.mem_filter.1 hm).2
      rw [lookup_isNone_iff] at this
      exact this (hst _ hmem)

theorem forRemaining_mono (disc : Discovery)
    (rec1 rec2 : List Module → List String → Loader → Option (Except Err Unit × Loader))
    (hrec : ∀ deps st l x, rec1 deps st l = some x → rec2 deps st l = some x)
    (stack : List String) (remaining : List Module) (l : Loader)
    (x : Except Err Unit × Loader)
    (h : forRemaining disc rec1 stack remaining l = some x) :
    forRemaining disc rec2 stack remaining l = some x := by
  induction remaining generalizing l with
  | nil => simpa [forRemaining] using h
  | cons mdl rest ih =>
      rw [forRemaining] at h ⊢
      cases hlm : loadModuleDependencies disc mdl
          { l with trace := l.trace ++ [Event.chain (mdl.hash :: stack)] } with
      | mk r1 la =>
      rw [hlm] at h
      cases r1 with
      | error e => exact h
      | ok deps =>
          simp only at h ⊢
          cases hr : rec1 deps (mdl.hash :: stack) la with
          | none => rw [hr] at h; cases h
          | some p =>
              rw [hr] at h
              rw [hrec _ _ _ _ hr]
              obtain ⟨r2, lb⟩ := p
              cases r2 with
              | error e => exact h
              | ok u => exact ih lb h

/-- More fuel does not change the result of a finished run. -/
theorem loadDependencies_mono (disc : Discovery) (n k : Nat) (hnk : n ≤ k)
    (modules : List Module) (depth : Int) (stack : List String) (l : Loader)
    (x : Except Err Unit × Loader)
    (h : loadDependencies disc n modules depth stack l = some x) :
    loadDependencies disc k modules depth stack l = some x := by
  induction n generalizing k modules depth stack l x with
  | zero => simp [loadDependencies] at h
  | succ n ih =>
      cases k with
      | zero => omega
      | succ k =>
          rw [loadDependencies] at h ⊢
          exact forRemaining_mono disc _ _
            (fun deps st la y hy => ih k (by omega) deps _ st la y hy) _ _ _ _ h

theorem unseen_lt (S : Finset String) (a b : List (String × Module)) (h : String)
    (hS : h ∈ S) (ha : h ∉ keys a) (hb : h ∈ keys b)
    (hab : ∀ k ∈ keys a, k ∈ keys b) : unseen S b < unseen S a := by
  unfold unseen
  apply Finset.card_lt_card
  rw [Finset.ssubset_iff_of_subset]
  · exact ⟨h, Finset.mem_filter.2 ⟨hS, ha⟩, fun hh => (Finset.mem_filter.1 hh).2 hb⟩
  · intro k hk
    rw [Finset.mem_filter] at hk ⊢
    exact ⟨hk.1, fun hka => hk.2 (hab k hka)⟩

theorem forRemaining_terminates (disc : Discovery) (n : Nat) (S : Finset String)
    (roots : List Module)
    (hS : ∀ h ds, Reachable disc roots h ds → h ∈ S)
    (ih : ∀ modules depth stack l,
      (∀ m ∈ modules, Reachable disc roots m.hash m.dependencies) →
      unseen S l.loaded < n →
      ∃ r l1, loadDependencies disc n modules depth stack l = some (r, l1))
    (depth : Int) (stack : List String) (entry : List (String × Module))
    (hentry : unseen S entry < n + 1) (remaining : List Module)
    (hrem : ∀ m ∈ remaining,
      Reachable disc roots m.hash m.dependencies ∧ m.hash ∉ keys entry)
    (l : Loader) (hl : ∀ k ∈ keys entry, k ∈ keys l.loaded) :
    ∃ r l1, forRemaining disc
      (fun deps st la => loadDependencies disc n deps (depth + 1) st la)
      stack remaining l = some (r, l1) := by
  induction remaining generalizing l with
  | nil => exact ⟨_, _, rfl⟩
  | cons mdl rest ihr =>
      rw [forRemaining]
      obtain ⟨hreach, hfresh⟩ := hrem mdl (List.mem_cons_self _ _)
      obtain ⟨h1, srcs, -, -, -, h5⟩ := loadModuleDependencies_run disc mdl
        { l with trace := l.trace ++ [Event.chain (mdl.hash :: stack)] }
      cases hlm : loadModuleDependencies disc mdl
          { l with trace := l.trace ++ [Event.chain (mdl.hash :: stack)] } with
      | mk r1 la =>
      rw [hlm] at h1 h5
      cases r1 with
      | error e => exact ⟨_, _, rfl⟩
      | ok deps =>
          simp only
          have hla : ∀ k ∈ keys entry, k ∈ keys la.loaded := by
            intro k hk
            rw [h1]
            exact List.mem_cons_of_mem _ (hl k hk)
          have hlt : unseen S la.loaded < n := by
            have := unseen_lt S entry la.loaded mdl.hash (hS _ _ hreach) hfresh
              (by rw [h1]; exact List.mem_cons_self _ _) hla
            omega
          have hdeps : ∀ m ∈ deps, Reachable disc roots m.hash m.dependencies := by
            intro m hm
            obtain ⟨d, hd, files, hfiles, f, hf, hh1, hh2⟩ := (h5 deps rfl).2 m hm
            rw [← hh1, ← hh2]
            exact Reachable.dep _ _ d files f hreach hd hfiles hf
          obtain ⟨r2, lb, hr⟩ := ih deps (depth + 1) (mdl.hash :: stack) la hdeps hlt
          rw [hr]
          have k2 := (loadDependencies_run disc _ _ _ _ _ _ _ hr).keys_mono
          cases r2 with
          | error e => exact ⟨_, _, rfl⟩
          | ok u =>
              exact ihr (fun m hm => hrem m (List.mem_cons_of_mem _ hm)) lb
                (fun k hk => k2 k (hla k hk))

/-- With the reachable hashes inside the finite set `S`, a run of
`loadDependencies` finishes as soon as the fuel exceeds the number of hashes
of `S` that are not registered yet. -/
theorem loadDependencies_total (disc : Discovery) (S : Finset String) (roots : List Module)
    (hS : ∀ h ds, Reachable disc roots h ds → h ∈ S) (n : Nat) (modules : List Module)
    (depth : Int) (stack : List String) (l : Loader)
    (hmods : ∀ m ∈ modules, Reachable disc roots m.hash m.dependencies)
    (hn : unseen S l.loaded < n) :
    ∃ r l1, loadDependencies disc n modules depth stack l = some (r, l1) := by
  induction n generalizing modules depth stack l with
  | zero => omega
  | succ n ih =>
      rw [loadDependencies]
      refine forRemaining_terminates disc n S roots hS
        (fun ms d st la h1 h2 => ih ms d st la h1 h2) depth stack l.loaded hn _ ?_ l
        (fun k hk => hk)
      intro m hm
      obtain ⟨hm1, hm2⟩ := List.mem_filter.1 hm
      exact ⟨hmods m hm1, (lookup_isNone_iff _ _).1 hm2⟩

/-! ## Properties of the loader -/

theorem cycleGraph_reachable (h : String) (ds : List Dependency)
    (hr : Reachable cycleGraph [cycleRoot] h ds) : h ∈ ({"A", "B"} : Set String) := by
  induction hr with
  | root m hm =>
      rw [List.mem_singleton] at hm
      subst hm
      left; rfl
  | dep h ds d files f _ _ hfiles hf _ =>
      unfold cycleGraph at hfiles
      split at hfiles
      · injection hfiles with hfiles
        subst hfiles
        rw [List.mem_singleton] at hf
        subst hf
        left; rfl
      · split at hfiles
        · injection hfiles with hfiles
          subst hfiles
          rw [List.mem_singleton] at hf
          subst hf
          right; rfl
        · cases hfiles

/-- C1: with `loadModules` a total function from sources to module files or
an error, whenever the module files reachable from the starting list have
finitely many distinct hashes, `loadDependencies` returns (for every amount
of fuel from some bound on, with one and the same result), and along every
chain of nested calls recorded during the run the hashes of the modules being
processed are pairwise distinct. -/
theorem loadDependencies_terminates (disc : Discovery) (modules : List Module)
    (depth : Int) (l : Loader)
    (hfin : {h : String | ∃ ds, Reachable disc modules h ds}.Finite) :
    ∃ fuel r l1,
      (∀ n, fuel ≤ n → loadDependencies disc n modules depth [] l = some (r, l1))
      ∧ ∃ evs, l1.trace = l.trace ++ evs ∧ ∀ c ∈ chains evs, c.Nodup := by
  have hS : ∀ h ds, Reachable disc modules h ds → h ∈ hfin.toFinset := by
    intro h ds hr
    rw [Set.Finite.mem_toFinset]
    exact ⟨ds, hr⟩
  obtain ⟨r, l1, hrun⟩ := loadDependencies_total disc hfin.toFinset modules hS
    (unseen hfin.toFinset l.loaded + 1) modules depth [] l
    (fun m hm => Reachable.root m hm) (Nat.lt_succ_self _)
  refine ⟨unseen hfin.toFinset l.loaded + 1, r, l1, ?_, ?_⟩
  · intro n hn
    exact loadDependencies_mono disc _ n hn modules depth [] l _ hrun
  · exact loadDependencies_chains disc _ modules depth [] l r l1 hrun List.nodup_nil
      (fun h hh => by cases hh)

theorem loadDependencies_terminates_witness :
    ∃ fuel r l1,
      (∀ n, fuel ≤ n →
        loadDependencies cycleGraph n [cycleRoot] 0 [] (emptyLoader "a") = some (r, l1))
      ∧ ∃ evs, l1.trace = (emptyLoader "a").trace ++ evs ∧ ∀ c ∈ chains evs, c.Nodup :=
  loadDependencies_terminates cycleGraph [cycleRoot] 0 (emptyLoader "a")
    (Set.Finite.subset (Set.toFinite ({"A", "B"} : Set String))
      (fun _ ⟨ds, hr⟩ => cycleGraph_reachable _ ds hr))

theorem load_run (disc : Discovery) (fuel : Nat) (l : Loader) (r : Except Err Unit)
    (l1 : Loader) (h : load disc fuel l = some (r, l1)) :
    ∃ evs, l1.trace = l.trace ++ Event.fetch l.src :: evs
      ∧ FailFast disc r (l.src :: fetches evs)
      ∧ ∀ a, r = .ok a → fetches evs = (visits evs).flatMap depSources := by
  unfold load at h
  have hf := loadModules_frame disc l.src l
  have hok := loadModules_ok disc l.src l
  have herr := loadModules_error disc l.src l
  cases hlm : loadModules disc l.src l with
  | mk r1 la =>
  rw [hlm] at h hf hok herr
  cases r1 with
  | error e =>
      simp only [Option.some.injEq, Prod.mk.injEq] at h
      obtain ⟨rfl, rfl⟩ := h
      refine ⟨[], hf.2.1, ⟨[], l.src, rfl, herr e rfl, fun s hs => by cases hs⟩, ?_⟩
      intro a ha; cases ha
  | ok ms =>
      simp only at h
      obtain ⟨files, hfiles, -⟩ := hok ms rfl
      obtain ⟨-, evs, t, f, -, e⟩ := loadDependencies_run disc fuel ms 0 [] la r l1 h
      refine ⟨evs, ?_, failFast_cons disc r l.src _ files hfiles f, e⟩
      rw [t, hf.2.1]; simp

theorem failFast_last (disc : Discovery) (r : Except Err Unit) (srcs pre post : List String)
    (s : String) (e : Err) (h : FailFast disc r srcs) (hs : srcs = pre ++ s :: post)
    (he : disc s = .error e) : r = .error e ∧ post = [] := by
  cases r with
  | ok u =>
      obtain ⟨files, hfiles⟩ := h s (by rw [hs]; simp)
      rw [he] at hfiles; cases hfiles
  | error e1 =>
      obtain ⟨pre1, s1, h1, h2, h3⟩ := h
      rw [hs] at h1
      rcases List.append_eq_append_iff.1 h1 with ⟨a, ha, hb⟩ | ⟨c, hc, hd⟩
      · cases a with
        | nil =>
            simp only [List.nil_append, List.cons.injEq] at hb
            obtain ⟨rfl, rfl⟩ := hb
            rw [he] at h2
            injection h2 with h2
            exact ⟨by rw [h2], rfl⟩
        | cons x a =>
            simp only [List.cons_append, List.cons.injEq] at hb
            obtain ⟨files, hfiles⟩ := h3 s (by rw [ha, hb.1]; simp)
            rw [he] at hfiles; cases hfiles
      · cases c with
        | nil =>
            simp only [List.nil_append, List.cons.injEq] at hd
            obtain ⟨rfl, hpost⟩ := hd
            rw [he] at h2
            injection h2 with h2
            exact ⟨by rw [h2], hpost.symm⟩
        | cons x c =>
            simp only [List.cons_append, List.cons.injEq] at hd
            have := congrArg List.length hd.2
            simp at this
            omega

/-- C2 (as the code has it): a successful run of `load` calls `loadModules`
for the root source and then, for every module `loadModuleDependencies` is
called on and in the order of these calls, once for each dependency the module
declares, whether or not the same source string was fetched before. -/
theorem load_fetches (disc : Discovery) (fuel : Nat) (l l1 : Loader)
    (h : load disc fuel l = some (.ok (), l1)) :
    ∃ evs, l1.trace = l.trace ++ evs ∧
      fetches evs = l.src :: (visits evs).flatMap depSources := by
  obtain ⟨evs, t, -, e⟩ := load_run disc fuel l _ l1 h
  have hfe : fetches (Event.fetch l.src :: evs) = l.src :: fetches evs := rfl
  have hve : visits (Event.fetch l.src :: evs) = visits evs := rfl
  exact ⟨Event.fetch l.src :: evs, t, by rw [hfe, hve, e () rfl]⟩

theorem load_fetches_witness :
    ∃ l1, load diamondGraph 3 (emptyLoader "root") = some (.ok (), l1) ∧
      ∃ evs, l1.trace = (emptyLoader "root").trace ++ evs ∧
        fetches evs = (emptyLoader "root").src :: (visits evs).flatMap depSources :=
  ⟨_, rfl, load_fetches diamondGraph 3 (emptyLoader "root") _ rfl⟩

/-- C2 fails on the diamond `A -> C`, `B -> C`: the run of `load` succeeds and
calls `loadModules` twice for the shared source string. -/
theorem load_diamond_fetches_twice :
    ∃ l1, load diamondGraph 3 (emptyLoader "root") = some (.ok (), l1) ∧
      fetches l1.trace = ["root", "csrc", "csrc"] ∧
      (fetches l1.trace).count "csrc" ≠ 1 :=
  ⟨_, rfl, by decide, by decide⟩

/-- C10: the `depth` argument has no effect: two calls of `loadDependencies`
that differ only in `depth` have the same result and leave the same loader
state (registry included), and an error returned by `loadDependencies` is
always the error of some `loadModules` call, never a depth or cycle error. -/
theorem loadDependencies_depth_irrelevant (disc : Discovery) (fuel : Nat)
    (modules : List Module) (d1 d2 : Int) (stack : List String) (l : Loader) :
    loadDependencies disc fuel modules d1 stack l
        = loadDependencies disc fuel modules d2 stack l
      ∧ ∀ e l1, loadDependencies disc fuel modules d1 stack l = some (.error e, l1) →
          ∃ src, disc src = .error e := by
  constructor
  · induction fuel generalizing modules d1 d2 stack l with
    | zero => rfl
    | succ n ih =>
        rw [loadDependencies, loadDependencies]
        have : (fun deps stack1 l1 => loadDependencies disc n deps (d1 + 1) stack1 l1)
            = (fun deps stack1 l1 => loadDependencies disc n deps (d2 + 1) stack1 l1) := by
          funext deps stack1 l1
          exact ih deps (d1 + 1) (d2 + 1) stack1 l1
        rw [this]
  · intro e l1 h
    obtain ⟨-, evs, -, ⟨pre, s, -, hs, -⟩, -⟩ :=
      loadDependencies_run disc fuel modules d1 stack l _ l1 h
    exact ⟨s, hs⟩

/-- C3 at a concrete input: `loadModuleDependencies` on the module `A` (pointer
0) of the diamond, whose dependency `c` has the source `"csrc"` holding `C`,
succeeds with `C` (pointer 5) as the only module to recurse into; afterwards
`A.deps["c"]` is still unset, and the map of the discovered module has been
written: `C.deps["c"] = C`. -/
theorem loadModuleDependencies_wires_discovered :
    (loadModuleDependencies diamondGraph ⟨0, "A", [⟨"c", "csrc"⟩]⟩
        { emptyLoader "root" with nextId := 5 }).1 = .ok [⟨5, "C", []⟩]
      ∧ depsOf (loadModuleDependencies diamondGraph ⟨0, "A", [⟨"c", "csrc"⟩]⟩
          { emptyLoader "root" with nextId := 5 }).2.heap 0 "c" = none
      ∧ depsOf (loadModuleDependencies diamondGraph ⟨0, "A", [⟨"c", "csrc"⟩]⟩
          { emptyLoader "root" with nextId := 5 }).2.heap 5 "c" = some ⟨5, "C", []⟩ :=
  ⟨rfl, by decide, by decide⟩

/-- C4 at a concrete input: the root source holds `A` and `B`, and `A` depends
on the root source. In the run of `load`, `loadModuleDependencies` is called
twice for the hash `"B"`: first for the instance with pointer 3 found through
`A`, then for the sibling with pointer 1, which replaces the first one in the
registry. -/
theorem load_sibling_visited_twice :
    ∃ l1, load siblingGraph 4 (emptyLoader "root") = some (.ok (), l1) ∧
      (visits l1.trace).map (fun m => (m.hash, m.id)) = [("A", 0), ("B", 3), ("B", 1)] ∧
      l1.loaded.map (fun p => (p.1, p.2.id)) = [("B", 1), ("B", 3), ("A", 0)] ∧
      (lookup l1.loaded "B").map Module.id = some 1 :=
  ⟨_, rfl, by decide, by decide, by decide⟩

/-! ## Failing fetches end the run -/

theorem forRemaining_finished (disc : Discovery)
    (rec1 : List Module → List String → Loader → Option (Except Err Unit × Loader))
    (rec2 : List Module → List String → Loader → Option (Except Err Unit) × Loader)
    (hrec : ∀ deps st l, rec1 deps st l = finished (rec2 deps st l))
    (stack : List String) (remaining : List Module) (l : Loader) :
    forRemaining disc rec1 stack remaining l
      = finished (forRemainingUpTo disc rec2 stack remaining l) := by
  induction remaining generalizing l with
  | nil => rfl
  | cons mdl rest ih =>
      rw [forRemaining, forRemainingUpTo]
      cases hlm : loadModuleDependencies disc mdl
          { l with trace := l.trace ++ [Event.chain (mdl.hash :: stack)] } with
      | mk r1 la =>
      cases r1 with
      | error e => rfl
      | ok deps =>
          simp only
          rw [hrec]
          cases hr : rec2 deps (mdl.hash :: stack) la with
          | mk o lb =>
          cases o with
          | none => rfl
          | some r2 =>
              cases r2 with
              | error e => rfl
              | ok u => exact ih lb

/-- The run with fuel is the run cut off at the bound, with the state dropped
when the bound was hit. -/
theorem loadDependencies_finished (disc : Discovery) (fuel : Nat) (modules : List Module)
    (depth : Int) (stack : List String) (l : Loader) :
    loadDependencies disc fuel modules depth stack l
      = finished (loadDependenciesUpTo disc fuel modules depth stack l) := by
  induction fuel generalizing modules depth stack l with
  | zero => rfl
  | succ n ih =>
      rw [loadDependencies, loadDependenciesUpTo]
      exact forRemaining_finished disc _ _ (fun deps st la => ih deps _ st la) _ _ _

theorem load_finished (disc : Discovery) (fuel : Nat) (l : Loader) :
    load disc fuel l = finished (loadUpTo disc fuel l) := by
  unfold load loadUpTo
  cases hlm : loadModules disc l.src l with
  | mk r1 la =>
  cases r1 with
  | error e => rfl
  | ok ms => exact loadDependencies_finished disc fuel ms 0 [] la

/-- The result a cut-off run is judged by: hitting the bound counts as no
failure so far. -/
theorem failFast_error_cast {α β : Type} (disc : Discovery) (e : Err) (srcs : List String)
    (h : FailFast disc (Except.error e : Except Err α) srcs) :
    FailFast disc (Except.error e : Except Err β) srcs := h

theorem forRemainingUpTo_failFast (disc : Discovery)
    (recurse : List Module → List String → Loader → Option (Except Err Unit) × Loader)
    (hrec : ∀ deps st l, ∃ evs, (recurse deps st l).2.trace = l.trace ++ evs
      ∧ FailFast disc ((recurse deps st l).1.getD (.ok ())) (fetches evs))
    (stack : List String) (remaining : List Module) (l : Loader) :
    ∃ evs, (forRemainingUpTo disc recurse stack remaining l).2.trace = l.trace ++ evs
      ∧ FailFast disc ((forRemainingUpTo disc recurse stack remaining l).1.getD (.ok ()))
          (fetches evs) := by
  induction remaining generalizing l with
  | nil =>
      refine ⟨[], by simp [forRemainingUpTo], ?_⟩
      intro s hs
      cases hs
  | cons mdl rest ih =>
      rw [forRemainingUpTo]
      obtain ⟨-, srcs, h2, -, h4, -⟩ := loadModuleDependencies_run disc mdl
        { l with trace := l.trace ++ [Event.chain (mdl.hash :: stack)] }
      have hf : fetches (Event.chain (mdl.hash :: stack) :: Event.visit mdl ::
          srcs.map Event.fetch) = srcs := by
        have : fetches (Event.chain (mdl.hash :: stack) :: Event.visit mdl ::
            srcs.map Event.fetch) = fetches (srcs.map Event.fetch) := rfl
        rw [this, fetches_map_fetch]
      cases hlm : loadModuleDependencies disc mdl
          { l with trace := l.trace ++ [Event.chain (mdl.hash :: stack)] } with
      | mk r1 la =>
      rw [hlm] at h2 h4
      simp only [List.append_assoc, List.singleton_append] at h2
      cases r1 with
      | error e =>
          refine ⟨_, h2, ?_⟩
          rw [hf]
          exact failFast_error_cast disc e srcs h4
      | ok deps =>
          simp only
          obtain ⟨evs2, t2, f2⟩ := hrec deps (mdl.hash :: stack) la
          cases hr : recurse deps (mdl.hash :: stack) la with
          | mk o lb =>
          rw [hr] at t2 f2
          have hcomb : ∀ (r : Except Err Unit), FailFast disc r (fetches evs2) →
              FailFast disc r (fetches ((Event.chain (mdl.hash :: stack) :: Event.visit mdl ::
                srcs.map Event.fetch) ++ evs2)) := by
            intro r hr2
            rw [fetches_append, hf]
            exact failFast_append disc deps r srcs _ h4 hr2
          have htrace : lb.trace = l.trace ++ ((Event.chain (mdl.hash :: stack) ::
              Event.visit mdl :: srcs.map Event.fetch) ++ evs2) := by
            rw [t2, h2, List.append_assoc]
          cases o with
          | none => exact ⟨_, htrace, hcomb _ f2⟩
          | some r2 =>
              cases r2 with
              | error e => exact ⟨_, htrace, hcomb _ f2⟩
              | ok u =>
                  simp only
                  obtain ⟨evs3, t3, f3⟩ := ih lb
                  refine ⟨((Event.chain (mdl.hash :: stack) :: Event.visit mdl ::
                    srcs.map Event.fetch) ++ evs2) ++ evs3, ?_, ?_⟩
                  · rw [t3, htrace, List.append_assoc]
                  · rw [fetches_append]
                    exact failFast_append disc u _ _ _ (hcomb _ f2) f3

theorem loadDependenciesUpTo_failFast (disc : Discovery) (fuel : Nat)
    (modules : List Module) (depth : Int) (stack : List String) (l : Loader) :
    ∃ evs, (loadDependenciesUpTo disc fuel modules depth stack l).2.trace = l.trace ++ evs
      ∧ FailFast disc ((loadDependenciesUpTo disc fuel modules depth stack l).1.getD (.ok ()))
          (fetches evs) := by
  induction fuel generalizing modules depth stack l with
  | zero =>
      refine ⟨[], by simp [loadDependenciesUpTo], ?_⟩
      intro s hs
      cases hs
  | succ n ih =>
      rw [loadDependenciesUpTo]
      exact forRemainingUpTo_failFast disc _ (fun deps st la => ih deps _ st la) _ _ _

theorem loadUpTo_failFast (disc : Discovery) (fuel : Nat) (l : Loader) :
    ∃ evs, (loadUpTo disc fuel l).2.trace = l.trace ++ Event.fetch l.src :: evs
      ∧ FailFast disc ((loadUpTo disc fuel l).1.getD (.ok ())) (l.src :: fetches evs) := by
  unfold loadUpTo
  have hf := loadModules_frame disc l.src l
  have hok := loadModules_ok disc l.src l
  have herr := loadModules_error disc l.src l
  cases hlm : loadModules disc l.src l with
  | mk r1 la =>
  rw [hlm] at hf hok herr
  cases r1 with
  | error e =>
      exact ⟨[], hf.2.1, ⟨[], l.src, rfl, herr e rfl, fun s hs => by cases hs⟩⟩
  | ok ms =>
      simp only
      obtain ⟨files, hfiles, -⟩ := hok ms rfl
      obtain ⟨evs, t, f⟩ := loadDependenciesUpTo_failFast disc fuel ms 0 [] la
      refine ⟨evs, ?_, failFast_cons disc _ l.src _ files hfiles f⟩
      rw [t, hf.2.1]; simp

theorem load_mono (disc : Discovery) (n k : Nat) (hnk : n ≤ k) (l : Loader)
    (x : Except Err Unit × Loader) (h : load disc n l = some x) :
    load disc k l = some x := by
  unfold load at h ⊢
  cases hlm : loadModules disc l.src l with
  | mk r1 la =>
  rw [hlm] at h
  cases r1 with
  | error e => exact h
  | ok ms => exact loadDependencies_mono disc n k hnk ms 0 [] la x h

/-- A run of `load` returns, for every fuel from some bound on and with one
result, when the root source cannot be fetched or the module files reachable
from those of the root source have finitely many distinct hashes. -/
theorem load_terminates (disc : Discovery) (l : Loader)
    (hfin : ∀ files, disc l.src = .ok files →
      {h : String | ∃ ds, Reachable disc (allocate l.nextId files) h ds}.Finite) :
    ∃ fuel r l1, ∀ n, fuel ≤ n → load disc n l = some (r, l1) := by
  cases hroot : disc l.src with
  | error e =>
      refine ⟨0, .error e, { l with trace := l.trace ++ [Event.fetch l.src] }, ?_⟩
      intro n _
      unfold load loadModules
      rw [hroot]
  | ok files =>
      have hf := hfin files hroot
      have hS : ∀ h ds, Reachable disc (allocate l.nextId files) h ds → h ∈ hf.toFinset := by
        intro h ds hr
        rw [Set.Finite.mem_toFinset]
        exact ⟨ds, hr⟩
      obtain ⟨r, l1, hrun⟩ := loadDependencies_total disc hf.toFinset (allocate l.nextId files)
        hS (unseen hf.toFinset l.loaded + 1) (allocate l.nextId files) 0 []
        { l with trace := l.trace ++ [Event.fetch l.src]
                 nextId := l.nextId + files.length }
        (fun m hm => Reachable.root m hm) (Nat.lt_succ_self _)
      refine ⟨unseen hf.toFinset l.loaded + 1, r, l1, ?_⟩
      intro n hn
      unfold load loadModules
      rw [hroot]
      exact loadDependencies_mono disc _ n hn _ 0 [] _ _ hrun

/-- C6: run `load` until it returns or the nesting exceeds `fuel`, whatever
`fuel` is. The first `loadModules` call of the run is for the root source. If
some `loadModules` call of the run (for the root source or a dependency source)
returns an error `e`, then that call is the last one made, and `load` returns:
with this fuel and with any larger one its result is exactly `e`, in the state
reached right after the failing call. A run of `load` that returns within the
fuel is the run observed here. Moreover `load` returns, for every fuel from
some bound on, whenever the module files reachable from those of the root
source have finitely many distinct hashes. -/
theorem load_fail_fast (disc : Discovery) (fuel : Nat) (l : Loader) :
    (∃ evs, (loadUpTo disc fuel l).2.trace = l.trace ++ evs
      ∧ (fetches evs).head? = some l.src
      ∧ (∀ pre s post e, fetches evs = pre ++ s :: post → disc s = .error e →
          post = [] ∧ ∀ n, fuel ≤ n →
            load disc n l = some (.error e, (loadUpTo disc fuel l).2))
      ∧ (∀ r l1, load disc fuel l = some (r, l1) → loadUpTo disc fuel l = (some r, l1)))
    ∧ ((∀ files, disc l.src = .ok files →
          {h : String | ∃ ds, Reachable disc (allocate l.nextId files) h ds}.Finite) →
        ∃ fuel0 r l1, ∀ n, fuel0 ≤ n → load disc n l = some (r, l1)) := by
  refine ⟨?_, load_terminates disc l⟩
  obtain ⟨evs, t, f⟩ := loadUpTo_failFast disc fuel l
  have hfe : fetches (Event.fetch l.src :: evs) = l.src :: fetches evs := rfl
  have hfin := load_finished disc fuel l
  refine ⟨Event.fetch l.src :: evs, t, by rw [hfe]; rfl, ?_, ?_⟩
  · intro pre s post e hs he
    rw [hfe] at hs
    obtain ⟨hr, hpost⟩ := failFast_last disc _ _ pre post s e f hs he
    refine ⟨hpost, fun n hn => ?_⟩
    apply load_mono disc fuel n hn
    rw [hfin]
    cases hup : loadUpTo disc fuel l with
    | mk o l1 =>
    rw [hup] at hr
    cases o with
    | none => cases hr
    | some r =>
        simp only [Option.getD_some] at hr
        rw [hr]
        rfl
  · intro r l1 h
    rw [hfin] at h
    cases hup : loadUpTo disc fuel l with
    | mk o l2 =>
    rw [hup] at h
    cases o with
    | none => cases h
    | some r2 =>
        simp only [finished, Option.some.injEq, Prod.mk.injEq] at h
        rw [h.1, h.2]

theorem load_fail_fast_witness :
    ∃ evs, (loadUpTo nestedBrokenGraph 2 (emptyLoader "root")).2.trace
        = (emptyLoader "root").trace ++ evs
      ∧ fetches evs = ["root", "bsrc", "xsrc"]
      ∧ nestedBrokenGraph "xsrc" = .error "cannot fetch xsrc"
      ∧ (∀ n, 2 ≤ n → load nestedBrokenGraph n (emptyLoader "root")
          = some (.error "cannot fetch xsrc",
              (loadUpTo nestedBrokenGraph 2 (emptyLoader "root")).2)) := by
  obtain ⟨evs, t, -, h, -⟩ := (load_fail_fast nestedBrokenGraph 2 (emptyLoader "root")).1
  have hev : evs = (loadUpTo nestedBrokenGraph 2 (emptyLoader "root")).2.trace := by
    rw [t]; rfl
  have hf : fetches evs = ["root", "bsrc", "xsrc"] := by
    rw [hev]; decide
  exact ⟨evs, t, hf, rfl, (h ["root", "bsrc"] "xsrc" [] _ hf rfl).2⟩

/-! ## Properties of `ProcessDependencies` -/

/-- C5: `ProcessDependencies(dest)` calls the executor with `init`, then
`apply`, then `output -json`, each with working directory `dest`; the first
of them that returns an error ends the sequence and its error is returned
with no value map; a value map or a resolver error is returned only after all
three commands succeeded, and it is the result of the resolver on the standard
output of the `output -json` command alone. Here `o1`, `o2`, `o3` are the
outcomes of the three commands run one after the other. -/
theorem ProcessDependencies_spec {W V : Type} (executor : Executor W)
    (resolve : String → Except Err V) (dest : String) (s : Shell W) :
    let init : Call := ⟨⟨Sink.debugLog, Sink.debugLog, dest⟩, "init", []⟩
    let apply : Call := ⟨⟨Sink.debugLog, Sink.debugLog, dest⟩, "apply", []⟩
    let output : Call := ⟨⟨Sink.buffer, Sink.debugLog, dest⟩, "output", ["-json"]⟩
    let o1 := executor init.options "init" [] s.world
    let o2 := executor apply.options "apply" [] o1.world
    let o3 := executor output.options "output" ["-json"] o2.world
    let res := ProcessDependencies executor resolve dest s
    (∀ e, o1.err = some e →
        res.1 = .error e ∧ res.2.calls = s.calls ++ [init] ∧ res.2.world = o1.world)
    ∧ (∀ e, o1.err = none → o2.err = some e →
        res.1 = .error e ∧ res.2.calls = s.calls ++ [init, apply] ∧ res.2.world = o2.world)
    ∧ (∀ e, o1.err = none → o2.err = none → o3.err = some e →
        res.1 = .error e ∧ res.2.calls = s.calls ++ [init, apply, output]
          ∧ res.2.world = o3.world)
    ∧ (o1.err = none → o2.err = none → o3.err = none →
        res.1 = resolve o3.stdout ∧ res.2.calls = s.calls ++ [init, apply, output]
          ∧ res.2.world = o3.world)
    ∧ (∀ v, res.1 = .ok v →
        o1.err = none ∧ o2.err = none ∧ o3.err = none ∧ resolve o3.stdout = .ok v)
    ∧ (∀ c ∈ res.2.calls, c ∈ s.calls ∨ c.options.workingDirectory = dest) := by
  intro init apply output o1 o2 o3 res
  have hres : res = ProcessDependencies executor resolve dest s := rfl
  have h1 : o1 = executor ⟨Sink.debugLog, Sink.debugLog, dest⟩ "init" [] s.world := rfl
  have h2 : o2 = executor ⟨Sink.debugLog, Sink.debugLog, dest⟩ "apply" [] o1.world := rfl
  have h3 : o3 = executor ⟨Sink.buffer, Sink.debugLog, dest⟩ "output" ["-json"] o2.world := rfl
  clear_value o1 o2 o3 res
  unfold ProcessDependencies Execute at hres
  simp only [← h1] at hres
  cases e1 : o1.err with
  | some a =>
      simp only [e1] at hres
      subst hres
      simp [init]
      intro c hc
      rcases hc with hc | rfl
      · exact Or.inl hc
      · exact Or.inr rfl
  | none =>
      simp only [e1, ← h2] at hres
      cases e2 : o2.err with
      | some a =>
          simp only [e2] at hres
          subst hres
          simp [init, apply]
          intro c hc
          rcases hc with hc | rfl | rfl
          · exact Or.inl hc
          all_goals exact Or.inr rfl
      | none =>
          simp only [e2, ← h3] at hres
          cases e3 : o3.err with
          | some a =>
              simp only [e3] at hres
              subst hres
              simp [init, apply, output]
              intro c hc
              rcases hc with hc | rfl | rfl | rfl
              · exact Or.inl hc
              all_goals exact Or.inr rfl
          | none =>
              simp only [e3] at hres
              subst hres
              simp [init, apply, output, buffered]
              intro c hc
              rcases hc with hc | rfl | rfl | rfl
              · exact Or.inl hc
              all_goals exact Or.inr rfl

/-! ## Properties of `findModuleFiles` -/

theorem appendFiles_ok (fs : FileSystem) (pathOf : String → String) (es : List DirEntry)
    (hstat : ∀ e ∈ es, fs.stat (pathOf e.name) = .ok e.isDir) (acc : List String) :
    appendFiles fs (es.map fun e => pathOf e.name) acc
      = .ok (acc ++ ((es.filter fun e => !e.isDir).map fun e => pathOf e.name)) := by
  induction es generalizing acc with
  | nil => simp [appendFiles]
  | cons e rest ih =>
      rw [List.map_cons, appendFiles, hstat e (List.mem_cons_self _ _)]
      simp only
      rw [ih (fun x hx => hstat x (List.mem_cons_of_mem _ hx))]
      cases h : e.isDir <;> simp [List.filter_cons, h]

theorem appendFiles_error (fs : FileSystem) (paths acc : List String) (err : Err)
    (h : appendFiles fs paths acc = .error err) :
    ∃ path ∈ paths, fs.stat path = .error err := by
  induction paths generalizing acc with
  | nil => cases h
  | cons p rest ih =>
      rw [appendFiles] at h
      cases hs : fs.stat p with
      | error e1 =>
          rw [hs] at h
          injection h with h
          exact ⟨p, List.mem_cons_self _ _, by rw [hs, h]⟩
      | ok isDir =>
          rw [hs] at h
          obtain ⟨q, hq, hq1⟩ := ih _ h
          exact ⟨q, List.mem_cons_of_mem _ hq, hq1⟩

theorem matching_hcl_files (dir : List DirEntry) :
    (matching dir "*.hcl").filter (fun e => !e.isDir)
      = (readdirnames dir).filter (isModuleFile ".hcl") := by
  unfold matching
  rw [List.filter_filter]
  apply List.filter_congr
  intro e _
  show (!e.isDir && Match "*.hcl" e.name) = isModuleFile ".hcl" e
  rfl

theorem matching_tau_files (dir : List DirEntry) :
    (matching dir "*.tau").filter (fun e => !e.isDir)
      = (readdirnames dir).filter (isModuleFile ".tau") := by
  unfold matching
  rw [List.filter_filter]
  apply List.filter_congr
  intro e _
  show (!e.isDir && Match "*.tau" e.name) = isModuleFile ".tau" e
  rfl

theorem mem_matching (dir : List DirEntry) (pattern : String) (e : DirEntry)
    (h : e ∈ matching dir pattern) : e ∈ dir := by
  unfold matching at h
  exact (List.perm_insertionSort _ dir).mem_iff.1 (List.mem_filter.1 h).1

theorem isModuleFile_iff (suffix : String) (e : DirEntry) :
    isModuleFile suffix e = true ↔ e.isDir = false ∧ suffix.data <:+ e.name.data := by
  unfold isModuleFile
  rw [Bool.and_eq_true, List.isSuffixOf_iff_suffix]
  simp

theorem hcl_tau_disjoint (name : List Char) (h1 : ".hcl".data <:+ name)
    (h2 : ".tau".data <:+ name) : False := by
  have h := List.suffix_of_suffix_length_le h1 h2 (by decide)
  have := h.eq_of_length (by decide)
  revert this
  decide

theorem count_files (dir : List DirEntry) (suffix : String) (e : DirEntry) :
    ((readdirnames dir).filter (isModuleFile suffix)).count e
      = if isModuleFile suffix e then dir.count e else 0 := by
  split
  · next h =>
      rw [List.count_filter h]
      exact (List.perm_insertionSort _ dir).count_eq e
  · next h =>
      apply List.count_eq_zero_of_not_mem
      intro hm
      exact h (List.mem_filter.1 hm).2

/-- What `findModuleFiles` returns on a file system that shows `dst` as a
directory with the entries `dir`. -/
theorem findModuleFiles_shown (fs : FileSystem) (dst : String) (pathOf : String → String)
    (dir : List DirEntry) (h : Shows fs dst pathOf dir) :
    findModuleFiles fs dst
      = .ok (((readdirnames dir).filter (isModuleFile ".hcl")
            ++ (readdirnames dir).filter (isModuleFile ".tau")).map fun e => pathOf e.name) := by
  unfold findModuleFiles
  rw [forExtensions, h.glob "*.hcl" (Or.inl rfl)]
  simp only
  rw [appendFiles_ok fs pathOf _ (fun e he => h.stat e (mem_matching dir _ e he))]
  simp only
  rw [forExtensions, h.glob "*.tau" (Or.inr rfl)]
  simp only
  rw [appendFiles_ok fs pathOf _ (fun e he => h.stat e (mem_matching dir _ e he))]
  simp only [forExtensions, matching_hcl_files, matching_tau_files, List.nil_append,
    List.map_append]

theorem findModuleFiles_error (fs : FileSystem) (dst : String) (err : Err)
    (h : findModuleFiles fs dst = .error err) :
    (∃ ext, (ext = "*.hcl" ∨ ext = "*.tau") ∧ fs.glob (Join [dst, ext]) = .error err)
      ∨ ∃ ext m path, (ext = "*.hcl" ∨ ext = "*.tau") ∧ fs.glob (Join [dst, ext]) = .ok m
          ∧ path ∈ m ∧ fs.stat path = .error err := by
  unfold findModuleFiles at h
  rw [forExtensions] at h
  cases hg1 : fs.glob (Join [dst, "*.hcl"]) with
  | error e1 =>
      rw [hg1] at h
      injection h with h
      exact Or.inl ⟨"*.hcl", Or.inl rfl, by rw [hg1, h]⟩
  | ok m1 =>
      rw [hg1] at h
      simp only at h
      cases ha1 : appendFiles fs m1 [] with
      | error e1 =>
          rw [ha1] at h
          injection h with h
          obtain ⟨p, hp, hp1⟩ := appendFiles_error fs m1 [] e1 ha1
          exact Or.inr ⟨"*.hcl", m1, p, Or.inl rfl, hg1, hp, by rw [hp1, h]⟩
      | ok acc1 =>
          rw [ha1] at h
          simp only at h
          rw [forExtensions] at h
          cases hg2 : fs.glob (Join [dst, "*.tau"]) with
          | error e2 =>
              rw [hg2] at h
              injection h with h
              exact Or.inl ⟨"*.tau", Or.inr rfl, by rw [hg2, h]⟩
          | ok m2 =>
              rw [hg2] at h
              simp only at h
              cases ha2 : appendFiles fs m2 acc1 with
              | error e2 =>
                  rw [ha2] at h
                  injection h with h
                  obtain ⟨p, hp, hp1⟩ := appendFiles_error fs m2 acc1 e2 ha2
                  exact Or.inr ⟨"*.tau", m2, p, Or.inr rfl, hg2, hp, by rw [hp1, h]⟩
              | ok acc2 =>
                  rw [ha2] at h
                  simp only [forExtensions] at h
                  cases h

theorem appendFiles_fails (fs : FileSystem) (path : String) (err : Err)
    (hs : fs.stat path = .error err) (ps acc : List String) (hp : path ∈ ps) :
    ∃ err1, appendFiles fs ps acc = .error err1 := by
  induction ps generalizing acc with
  | nil => cases hp
  | cons p rest ih =>
      rw [appendFiles]
      cases hsp : fs.stat p with
      | error e1 => exact ⟨e1, rfl⟩
      | ok isDir =>
          rcases List.mem_cons.1 hp with hpp | hpp
          · rw [← hpp, hs] at hsp
            cases hsp
          · exact ih _ hpp

theorem findModuleFiles_glob_error (fs : FileSystem) (dst ext : String) (err : Err)
    (hext : ext = "*.hcl" ∨ ext = "*.tau")
    (h : fs.glob (Join [dst, ext]) = .error err) :
    ∃ err1, findModuleFiles fs dst = .error err1 := by
  unfold findModuleFiles
  rw [forExtensions]
  cases hg1 : fs.glob (Join [dst, "*.hcl"]) with
  | error e1 => exact ⟨e1, rfl⟩
  | ok m1 =>
      simp only
      cases ha1 : appendFiles fs m1 [] with
      | error e1 => exact ⟨e1, rfl⟩
      | ok acc1 =>
          rcases hext with rfl | rfl
          · rw [hg1] at h
            cases h
          · simp only
            rw [forExtensions, h]
            exact ⟨err, rfl⟩

theorem findModuleFiles_stat_error (fs : FileSystem) (dst ext : String) (err : Err)
    (m : List String) (path : String) (hext : ext = "*.hcl" ∨ ext = "*.tau")
    (hg : fs.glob (Join [dst, ext]) = .ok m)
    (hp : path ∈ m) (hs : fs.stat path = .error err) :
    ∃ err1, findModuleFiles fs dst = .error err1 := by
  unfold findModuleFiles
  rw [forExtensions]
  cases hg1 : fs.glob (Join [dst, "*.hcl"]) with
  | error e1 => exact ⟨e1, rfl⟩
  | ok m1 =>
      simp only
      cases ha1 : appendFiles fs m1 [] with
      | error e1 => exact ⟨e1, rfl⟩
      | ok acc1 =>
          rcases hext with rfl | rfl
          · rw [hg1] at hg
            injection hg with hg
            subst hg
            obtain ⟨err1, h1⟩ := appendFiles_fails fs path err hs m1 [] hp
            rw [h1] at ha1
            cases ha1
          · simp only
            rw [forExtensions, hg]
            simp only
            obtain ⟨err1, h1⟩ := appendFiles_fails fs path err hs m acc1 hp
            rw [h1]
            exact ⟨err1, rfl⟩

theorem findModuleFiles_first_glob_error (fs : FileSystem) (dst : String) (err : Err)
    (h : fs.glob (Join [dst, "*.hcl"]) = .error err) :
    findModuleFiles fs dst = .error err := by
  unfold findModuleFiles
  rw [forExtensions, h]

/-- C7 (as the code has it): `findModuleFiles(dst)` calls `filepath.Glob` with
the patterns `filepath.Join(dst, "*.hcl")` and `filepath.Join(dst, "*.tau")`
and `os.Stat` on every path found. On a file system that shows `dst` as a
directory with the entries `dir` (`filepath.Glob` finds the matching entries,
`os.Stat` succeeds on them) it returns, without error, the paths of the
entries that are not directories and whose name ends in `.hcl`, followed by
those that are not directories and whose name ends in `.tau`, each group in
sorted order: an entry is selected exactly when it is a direct entry of `dst`,
is not a directory and has one of the two suffixes, and then as often as the
listing holds it (once); without such an entry the result is the empty list
and no error. When `filepath.Glob` returns an error for one of the two
patterns, or `os.Stat` fails on a path found, the call returns an error and no
list (the error of `filepath.Glob` itself when it is the first pattern that
fails); and every error the call returns is the error of one of its
`filepath.Glob` calls or of `os.Stat` on a path found. -/
theorem findModuleFiles_spec (fs : FileSystem) (dst : String) :
    (∀ (pathOf : String → String) (dir : List DirEntry), Shows fs dst pathOf dir →
      let selected := (readdirnames dir).filter (isModuleFile ".hcl")
        ++ (readdirnames dir).filter (isModuleFile ".tau")
      findModuleFiles fs dst = .ok (selected.map fun e => pathOf e.name)
      ∧ (∀ e, e ∈ selected ↔ e ∈ dir ∧ e.isDir = false ∧
          (".hcl".data <:+ e.name.data ∨ ".tau".data <:+ e.name.data))
      ∧ (∀ e, e.isDir = false →
          ".hcl".data <:+ e.name.data ∨ ".tau".data <:+ e.name.data →
          selected.count e = dir.count e)
      ∧ (dir.Nodup → selected.Nodup)
      ∧ ((∀ e ∈ dir, e.isDir = true ∨
            ¬ (".hcl".data <:+ e.name.data ∨ ".tau".data <:+ e.name.data)) →
          findModuleFiles fs dst = .ok []))
    ∧ (∀ ext err, ext = "*.hcl" ∨ ext = "*.tau" →
        fs.glob (Join [dst, ext]) = .error err →
        ∃ err1, findModuleFiles fs dst = .error err1)
    ∧ (∀ err, fs.glob (Join [dst, "*.hcl"]) = .error err →
        findModuleFiles fs dst = .error err)
    ∧ (∀ ext err m path, ext = "*.hcl" ∨ ext = "*.tau" →
        fs.glob (Join [dst, ext]) = .ok m → path ∈ m →
        fs.stat path = .error err → ∃ err1, findModuleFiles fs dst = .error err1)
    ∧ (∀ err, findModuleFiles fs dst = .error err →
        (∃ ext, (ext = "*.hcl" ∨ ext = "*.tau") ∧ fs.glob (Join [dst, ext]) = .error err)
        ∨ ∃ ext m path, (ext = "*.hcl" ∨ ext = "*.tau") ∧ fs.glob (Join [dst, ext]) = .ok m
            ∧ path ∈ m ∧ fs.stat path = .error err) := by
  refine ⟨?_, fun ext err hext h => findModuleFiles_glob_error fs dst ext err hext h,
    findModuleFiles_first_glob_error fs dst,
    fun ext err m path hext hg hp hs =>
      findModuleFiles_stat_error fs dst ext err m path hext hg hp hs,
    findModuleFiles_error fs dst⟩
  intro pathOf dir hshows selected
  have hperm := List.perm_insertionSort (fun a b : DirEntry => a.name.data ≤ b.name.data) dir
  have hres : findModuleFiles fs dst = .ok (selected.map fun e => pathOf e.name) :=
    findModuleFiles_shown fs dst pathOf dir hshows
  have hmem : ∀ e, e ∈ selected ↔ e ∈ dir ∧ e.isDir = false ∧
      (".hcl".data <:+ e.name.data ∨ ".tau".data <:+ e.name.data) := by
    intro e
    simp only [selected, List.mem_append, List.mem_filter, isModuleFile_iff]
    have : e ∈ readdirnames dir ↔ e ∈ dir := hperm.mem_iff
    rw [this]
    tauto
  have hcount : ∀ e, e.isDir = false →
      ".hcl".data <:+ e.name.data ∨ ".tau".data <:+ e.name.data →
      selected.count e = dir.count e := by
    intro e hd hs
    simp only [selected, List.count_append, count_files]
    have hh : isModuleFile ".hcl" e = true ↔ ".hcl".data <:+ e.name.data := by
      rw [isModuleFile_iff]; tauto
    have ht : isModuleFile ".tau" e = true ↔ ".tau".data <:+ e.name.data := by
      rw [isModuleFile_iff]; tauto
    rcases hs with hs | hs
    · have hn : ¬ isModuleFile ".tau" e = true := fun h =>
        hcl_tau_disjoint _ hs (ht.1 h)
      rw [if_pos (hh.2 hs), if_neg hn, Nat.add_zero]
    · have hn : ¬ isModuleFile ".hcl" e = true := fun h =>
        hcl_tau_disjoint _ (hh.1 h) hs
      rw [if_neg hn, if_pos (ht.2 hs), Nat.zero_add]
  refine ⟨hres, hmem, hcount, ?_, ?_⟩
  · intro hnd
    rw [List.nodup_iff_count_le_one]
    intro e
    by_cases he : e ∈ selected
    · obtain ⟨-, h1, h2⟩ := (hmem e).1 he
      rw [hcount e h1 h2]
      exact List.nodup_iff_count_le_one.1 hnd e
    · rw [List.count_eq_zero_of_not_mem he]
      exact Nat.zero_le _
  · intro hnone
    have hsel : selected = [] := by
      apply List.eq_nil_iff_forall_not_mem.2
      intro e he
      obtain ⟨h0, h1, h2⟩ := (hmem e).1 he
      rcases hnone e h0 with h | h
      · rw [h1] at h; cases h
      · exact h h2
    rw [hres, hsel]
    rfl

theorem moduleFS_shows :
    Shows moduleFS "/work/d" (fun name => "/work/d/" ++ name) moduleDir := by
  constructor
  · intro ext hext
    rcases hext with rfl | rfl
    · rfl
    · rfl
  · intro e he
    simp only [moduleDir, List.mem_cons, List.mem_singleton, List.not_mem_nil, or_false] at he
    rcases he with rfl | rfl | rfl | rfl <;> rfl

theorem findModuleFiles_spec_witness :
    findModuleFiles moduleFS "/work/d" = .ok ["/work/d/a.hcl", "/work/d/b.tau"] := by
  have h := ((findModuleFiles_spec moduleFS "/work/d").1 (fun name => "/work/d/" ++ name)
    moduleDir moduleFS_shows).1
  rw [h]
  rfl

/-- C7 fails where the file system returns an error: in the directory `d`
with the file `a.hcl` and the dangling link `broken.hcl`, both of them entries
that are not directories and match `*.hcl`, the call returns the error of
`os.Stat` and no list; for the empty directory `d[` the call returns the
pattern error of `filepath.Glob` instead of the empty list. -/
theorem findModuleFiles_returns_error :
    findModuleFiles danglingFS "d"
        = .error "stat d/broken.hcl: no such file or directory"
      ∧ findModuleFiles badPatternFS "d[" = .error "syntax error in pattern"
      ∧ (∀ paths, findModuleFiles danglingFS "d" ≠ .ok paths)
      ∧ findModuleFiles badPatternFS "d[" ≠ .ok [] := by
  have h1 : findModuleFiles danglingFS "d"
      = .error "stat d/broken.hcl: no such file or directory" := rfl
  have h2 : findModuleFiles badPatternFS "d[" = .error "syntax error in pattern" := rfl
  refine ⟨h1, h2, ?_, ?_⟩
  · intro paths hp
    rw [h1] at hp
    cases hp
  · intro hp
    rw [h2] at hp
    cases hp

/-! ## `path.Clean` on the elements of a path -/

theorem sepJoin_cons_cons (e e2 : List Char) (rest : List (List Char)) :
    sepJoin (e :: e2 :: rest) = e ++ '/' :: sepJoin (e2 :: rest) := rfl

theorem sepJoin_cons (e : List Char) (es : List (List Char)) (h : es ≠ []) :
    sepJoin (e :: es) = e ++ '/' :: sepJoin es := by
  cases es with
  | nil => exact absurd rfl h
  | cons e2 rest => rfl

theorem sepJoin_append (a b : List (List Char)) (ha : a ≠ []) (hb : b ≠ []) :
    sepJoin (a ++ b) = sepJoin a ++ '/' :: sepJoin b := by
  induction a with
  | nil => exact absurd rfl ha
  | cons e rest ih =>
      cases rest with
      | nil =>
          rw [List.singleton_append, sepJoin_cons e b hb]
          rfl
      | cons e2 rest =>
          have h1 : e :: e2 :: rest ++ b = e :: (e2 :: rest ++ b) := rfl
          rw [h1, sepJoin_cons e _ (by simp), ih (by simp), sepJoin_cons_cons,
            List.append_assoc]
          rfl

theorem sepJoin_ne_nil (es : List (List Char)) (h : es ≠ []) (hne : ∀ e ∈ es, e ≠ []) :
    sepJoin es ≠ [] := by
  cases es with
  | nil => exact absurd rfl h
  | cons e rest =>
      cases rest with
      | nil => exact hne e (List.mem_cons_self _ _)
      | cons e2 rest =>
          rw [sepJoin_cons_cons]
          have := hne e (List.mem_cons_self _ _)
          simp [this]

theorem splitSlash_ne_nil (p : List Char) : splitSlash p ≠ [] := by
  cases p with
  | nil => simp [splitSlash]
  | cons c rest =>
      rw [splitSlash]
      split
      · simp
      · split <;> simp

theorem splitSlash_slash (p : List Char) : splitSlash ('/' :: p) = [] :: splitSlash p := by
  simp [splitSlash]

theorem splitSlash_cons (c : Char) (p : List Char) (hc : c ≠ '/') :
    splitSlash (c :: p) = (c :: (splitSlash p).headD []) :: (splitSlash p).tail := by
  rw [splitSlash, if_neg hc]
  have h := splitSlash_ne_nil p
  revert h
  cases splitSlash p with
  | nil => intro h; exact absurd rfl h
  | cons e es => intro h; rfl

theorem splitSlash_elem (e : List Char) (he : '/' ∉ e) : splitSlash e = [e] := by
  induction e with
  | nil => rfl
  | cons c rest ih =>
      have hc : c ≠ '/' := fun h => he (by rw [h]; exact List.mem_cons_self _ _)
      have hr : '/' ∉ rest := fun h => he (List.mem_cons_of_mem _ h)
      rw [splitSlash_cons c rest hc]
      simp [ih hr]

theorem splitSlash_elem_slash (e p : List Char) (he : '/' ∉ e) :
    splitSlash (e ++ '/' :: p) = e :: splitSlash p := by
  induction e with
  | nil => exact splitSlash_slash p
  | cons c rest ih =>
      have hc : c ≠ '/' := fun h => he (by rw [h]; exact List.mem_cons_self _ _)
      have hr : '/' ∉ rest := fun h => he (List.mem_cons_of_mem _ h)
      rw [List.cons_append, splitSlash_cons c _ hc]
      simp [ih hr]

theorem splitSlash_append (a b : List Char) :
    splitSlash (a ++ '/' :: b) = splitSlash a ++ splitSlash b := by
  induction a with
  | nil => exact splitSlash_slash b
  | cons c rest ih =>
      by_cases hc : c = '/'
      · subst hc
        rw [List.cons_append, splitSlash_slash, splitSlash_slash, ih]
        rfl
      · rw [List.cons_append, splitSlash_cons c _ hc, splitSlash_cons c rest hc]
        have h := splitSlash_ne_nil rest
        simp only [ih]
        revert h
        cases splitSlash rest with
        | nil => intro h; exact absurd rfl h
        | cons e es => intro _; rfl

theorem splitSlash_sepJoin (es : List (List Char)) (h : es ≠ [])
    (hs : ∀ e ∈ es, '/' ∉ e) : splitSlash (sepJoin es) = es := by
  induction es with
  | nil => exact absurd rfl h
  | cons e rest ih =>
      cases rest with
      | nil => exact splitSlash_elem e (hs e (List.mem_cons_self _ _))
      | cons e2 rest =>
          rw [sepJoin_cons_cons, splitSlash_elem_slash _ _ (hs e (List.mem_cons_self _ _)),
            ih (by simp) (fun x hx => hs x (List.mem_cons_of_mem _ hx))]

theorem splitSlash_slashFree (p : List Char) : ∀ e ∈ splitSlash p, '/' ∉ e := by
  induction p with
  | nil =>
      intro e he
      simp only [splitSlash, List.mem_singleton] at he
      subst he
      simp
  | cons c rest ih =>
      by_cases hc : c = '/'
      · subst hc
        rw [splitSlash_slash]
        intro e he
        rcases List.mem_cons.1 he with rfl | he
        · simp
        · exact ih e he
      · rw [splitSlash_cons c rest hc]
        intro e he
        rcases List.mem_cons.1 he with rfl | he
        · intro hmem
          rcases List.mem_cons.1 hmem with h | h
          · exact hc h.symm
          · have hne := splitSlash_ne_nil rest
            have hhd : (splitSlash rest).headD [] ∈ splitSlash rest := by
              revert hne
              cases splitSlash rest with
              | nil => intro hne; exact absurd rfl hne
              | cons x xs => intro _; exact List.mem_cons_self _ _
            exact ih _ hhd h
        · exact ih e (List.mem_of_mem_tail he)

theorem backtrack_at_slash (b e : List Char) (dotdot : Nat) (he : '/' ∉ e)
    (hd : dotdot ≤ b.length) (j : Nat) (hj : j ≤ e.length) :
    backtrack (b ++ '/' :: e) dotdot (b.length + j) = b.length := by
  induction j with
  | zero =>
      cases hb : b.length with
      | zero => rfl
      | succ w =>
          have hget : (b ++ '/' :: e)[w + 1]? = some '/' := by
            rw [← hb, List.getElem?_append_right (le_refl _)]
            simp
          rw [backtrack, hget]
          simp
  | succ j ih =>
      have hlt : j < e.length := hj
      have hget : (b ++ '/' :: e)[b.length + j + 1]? = some e[j] := by
        rw [List.getElem?_append_right (by omega)]
        have : b.length + j + 1 - b.length = j + 1 := by omega
        rw [this]
        simp [List.getElem?_eq_getElem hlt]
      have hne : e[j] ≠ '/' := fun h => he (h ▸ List.getElem_mem _)
      have : b.length + (j + 1) = (b.length + j) + 1 := by omega
      rw [this, backtrack, hget, if_pos ⟨by omega, by simpa using hne⟩]
      exact ih (by omega)

theorem backtrack_at_mark (b e : List Char) (he : '/' ∉ e) (j : Nat) :
    backtrack (b ++ e) b.length (b.length + j) = b.length := by
  induction j with
  | zero =>
      cases hb : b.length with
      | zero => rfl
      | succ w => simp [backtrack]
  | succ j ih =>
      have hget : (b ++ e)[b.length + j + 1]? ≠ some '/' := by
        rw [List.getElem?_append_right (by omega)]
        intro h
        exact he (List.getElem?_mem h)
      have : b.length + (j + 1) = (b.length + j) + 1 := by omega
      rw [this, backtrack, if_pos ⟨by omega, hget⟩]
      exact ih

theorem sepJoin_snoc (cs : List (List Char)) (e : List Char) :
    sepJoin (cs ++ [e]) = if cs = [] then e else sepJoin cs ++ '/' :: e := by
  by_cases h : cs = []
  · subst h; rfl
  · rw [if_neg h, sepJoin_append cs [e] h (by simp)]
    rfl

theorem sepJoin_length_le (a b : List (List Char)) :
    (sepJoin a).length ≤ (sepJoin (a ++ b)).length := by
  by_cases ha : a = []
  · subst ha; simp [sepJoin]
  · by_cases hb : b = []
    · subst hb; simp
    · rw [sepJoin_append a b ha hb]
      simp

theorem dots_ne_nil (n : Nat) : ∀ e ∈ dots n, e ≠ [] := by
  intro e he
  rw [dots, List.mem_replicate] at he
  rw [he.2]
  simp

theorem dots_slashFree (n : Nat) : ∀ e ∈ dots n, '/' ∉ e := by
  intro e he
  rw [dots, List.mem_replicate] at he
  rw [he.2]
  decide

theorem Kept.Valid.parts_ne_nil {rooted : Bool} {k : Kept} (h : k.Valid rooted) :
    ∀ e ∈ dots k.ups ++ k.elems, e ≠ [] := by
  intro e he
  rcases List.mem_append.1 he with he | he
  · exact dots_ne_nil _ e he
  · exact (h.1 e he).1

theorem Kept.Valid.parts_slashFree {rooted : Bool} {k : Kept} (h : k.Valid rooted) :
    ∀ e ∈ dots k.ups ++ k.elems, '/' ∉ e := by
  intro e he
  rcases List.mem_append.1 he with he | he
  · exact dots_slashFree _ e he
  · exact (h.1 e he).2.1

theorem render_length (rooted : Bool) (k : Kept) :
    (render rooted k).length
      = (if rooted then 1 else 0) + (sepJoin (dots k.ups ++ k.elems)).length := by
  unfold render
  cases rooted
  · simp
  · simp; omega

theorem render_length_eq_mark (rooted : Bool) (k : Kept) (h : k.elems = []) :
    (render rooted k).length = mark rooted k := by
  rw [render_length, mark, h, List.append_nil]

theorem render_length_gt_mark (rooted : Bool) (k : Kept) (hv : k.Valid rooted)
    (h : k.elems ≠ []) : (render rooted k).length > mark rooted k := by
  rw [render_length, mark]
  have hne := sepJoin_ne_nil k.elems h (fun e he => (hv.1 e he).1)
  have hpos : 0 < (sepJoin k.elems).length := List.length_pos.2 hne
  by_cases hd : dots k.ups = []
  · rw [hd]; simp [sepJoin]; omega
  · rw [sepJoin_append _ _ hd h]
    simp

theorem keep_valid (rooted : Bool) (k : Kept) (e : List Char) (hv : k.Valid rooted)
    (he : '/' ∉ e) : (keep rooted k e).Valid rooted := by
  unfold keep
  split
  · exact hv
  · next h1 =>
      split
      · split
        · exact ⟨fun x hx => hv.1 x (List.mem_of_mem_dropLast hx), hv.2⟩
        · split
          · exact hv
          · next hr => exact ⟨hv.1, fun h => absurd h hr⟩
      · next h2 =>
          refine ⟨?_, hv.2⟩
          intro x hx
          rcases List.mem_append.1 hx with hx | hx
          · exact hv.1 x hx
          · rw [List.mem_singleton] at hx
            subst hx
            exact ⟨fun h => h1 (Or.inl h), he, fun h => h1 (Or.inr h), h2⟩

theorem cleanLoop_nil (rooted : Bool) (fuel : Nat) (out : List Char) (dotdot : Nat) :
    cleanLoop rooted fuel [] out dotdot = out := by
  cases fuel with
  | zero => rfl
  | succ f => simp [cleanLoop]

theorem cleanLoop_slash (rooted : Bool) (fuel : Nat) (p out : List Char) (dotdot : Nat) :
    cleanLoop rooted (fuel + 1) ('/' :: p) out dotdot = cleanLoop rooted fuel p out dotdot := by
  simp [cleanLoop]

theorem cleanLoop_dot (rooted : Bool) (fuel : Nat) (t out : List Char) (dotdot : Nat)
    (ht : t = [] ∨ ∃ t1, t = '/' :: t1) :
    cleanLoop rooted (fuel + 1) ('.' :: t) out dotdot = cleanLoop rooted fuel t out dotdot := by
  rcases ht with rfl | ⟨t1, rfl⟩
  · simp [cleanLoop]
  · simp [cleanLoop]

theorem cleanLoop_dotdot (rooted : Bool) (fuel : Nat) (t out : List Char) (dotdot : Nat)
    (ht : t = [] ∨ ∃ t1, t = '/' :: t1) :
    cleanLoop rooted (fuel + 1) ('.' :: '.' :: t) out dotdot
      = if out.length > dotdot then
          cleanLoop rooted fuel t
            (out.take (backtrack out dotdot (out.length - 1))) dotdot
        else if !rooted then
          cleanLoop rooted fuel t
            ((if out.length > 0 then out ++ ['/'] else out) ++ ['.', '.'])
            ((if out.length > 0 then out ++ ['/'] else out) ++ ['.', '.']).length
        else
          cleanLoop rooted fuel t out dotdot := by
  rcases ht with rfl | ⟨t1, rfl⟩
  · simp [cleanLoop]
  · simp [cleanLoop]

theorem takeWhile_elem (e t : List Char) (he : '/' ∉ e)
    (ht : t = [] ∨ ∃ t1, t = '/' :: t1) :
    (e ++ t).takeWhile (fun c => c ≠ '/') = e
      ∧ (e ++ t).dropWhile (fun c => c ≠ '/') = t := by
  induction e with
  | nil =>
      rcases ht with rfl | ⟨t1, rfl⟩
      · simp
      · simp
  | cons c rest ih =>
      have hc : c ≠ '/' := fun h => he (by rw [h]; exact List.mem_cons_self _ _)
      have hr : '/' ∉ rest := fun h => he (List.mem_cons_of_mem _ h)
      obtain ⟨h1, h2⟩ := ih hr
      constructor
      · rw [List.cons_append, List.takeWhile_cons_of_pos (by simpa using hc), h1]
      · rw [List.cons_append, List.dropWhile_cons_of_pos (by simpa using hc), h2]

theorem cleanLoop_real (rooted : Bool) (fuel : Nat) (e t out : List Char) (dotdot : Nat)
    (he : IsReal e) (ht : t = [] ∨ ∃ t1, t = '/' :: t1) :
    cleanLoop rooted (fuel + 1) (e ++ t) out dotdot
      = cleanLoop rooted fuel t
          ((if (rooted = true ∧ out.length ≠ 1) ∨ (rooted = false ∧ out.length ≠ 0)
              then out ++ ['/'] else out) ++ e)
          dotdot := by
  obtain ⟨hne, hs, hdot, hdd⟩ := he
  obtain ⟨htake, hdrop⟩ := takeWhile_elem e t hs ht
  cases e with
  | nil => exact absurd rfl hne
  | cons c rest =>
      have hc : c ≠ '/' := fun h => hs (by rw [h]; exact List.mem_cons_self _ _)
      have hr : '/' ∉ rest := fun h => hs (List.mem_cons_of_mem _ h)
      have h0 : (c :: rest ++ t)[0]? = some c := by simp
      have hc1 : ¬ (some c = some '/') := fun h => hc (Option.some.inj h)
      rw [cleanLoop, if_neg (by simp), h0, if_neg hc1]
      have hcond2 : ¬ (some c = some '.' ∧
          ((c :: rest ++ t).length = 1 ∨ (c :: rest ++ t)[1]? = some '/')) := by
        rintro ⟨hcc, hh⟩
        have hcd : c = '.' := Option.some.inj hcc
        cases rest with
        | nil => exact hdot (by rw [hcd])
        | cons c2 rest2 =>
            rcases hh with hh | hh
            · simp at hh
            · have : c2 = '/' := by simpa using hh
              exact hr (by rw [this]; exact List.mem_cons_self _ _)
      have hcond3 : ¬ (some c = some '.' ∧ (c :: rest ++ t)[1]? = some '.' ∧
          ((c :: rest ++ t).length = 2 ∨ (c :: rest ++ t)[2]? = some '/')) := by
        rintro ⟨hcc, h1, hh⟩
        have hcd : c = '.' := Option.some.inj hcc
        cases rest with
        | nil =>
            rcases ht with rfl | ⟨t1, rfl⟩
            · simp at h1
            · simp at h1
        | cons c2 rest2 =>
            have hc2 : c2 = '.' := by simpa using h1
            cases rest2 with
            | nil => exact hdd (by rw [hcd, hc2])
            | cons c3 rest3 =>
                rcases hh with hh | hh
                · simp at hh
                · have : c3 = '/' := by simpa using hh
                  exact hr (by
                    rw [this]
                    exact List.mem_cons_of_mem _ (List.mem_cons_self _ _))
      rw [if_neg hcond2, if_neg hcond3, htake, hdrop]

theorem sepJoin_length_pos_iff (cs : List (List Char)) (hne : ∀ e ∈ cs, e ≠ []) :
    0 < (sepJoin cs).length ↔ cs ≠ [] := by
  constructor
  · intro h hcs
    rw [hcs] at h
    simp [sepJoin] at h
  · intro h
    exact List.length_pos.2 (sepJoin_ne_nil cs h hne)

theorem render_snoc (rooted : Bool) (ups : Nat) (elems : List (List Char)) (e : List Char) :
    render rooted ⟨ups, elems ++ [e]⟩
      = if dots ups ++ elems = [] then (if rooted then ['/'] else []) ++ e
        else render rooted ⟨ups, elems⟩ ++ '/' :: e := by
  unfold render
  simp only
  rw [← List.append_assoc, sepJoin_snoc]
  by_cases h : dots ups ++ elems = []
  · rw [if_pos h, if_pos h]
  · rw [if_neg h, if_neg h, List.append_assoc]

theorem render_drop_last (rooted : Bool) (ups : Nat) (elems : List (List Char))
    (x : List Char) (hx : '/' ∉ x) (hxne : x ≠ []) :
    (render rooted ⟨ups, elems ++ [x]⟩).take
        (backtrack (render rooted ⟨ups, elems ++ [x]⟩) (mark rooted ⟨ups, elems ++ [x]⟩)
          ((render rooted ⟨ups, elems ++ [x]⟩).length - 1))
      = render rooted ⟨ups, elems⟩ := by
  have hxl : 0 < x.length := List.length_pos.2 hxne
  rw [render_snoc]
  by_cases hcs : dots ups ++ elems = []
  · rw [if_pos hcs]
    have hd : dots ups = [] := (List.append_eq_nil.1 hcs).1
    have hmark : mark rooted ⟨ups, elems ++ [x]⟩
        = (if rooted then ['/'] else ([] : List Char)).length := by
      unfold mark
      simp only [hd, sepJoin]
      cases rooted <;> rfl
    have hrender : render rooted ⟨ups, elems⟩ = (if rooted then ['/'] else []) := by
      unfold render
      simp only [hcs, sepJoin, List.append_nil]
    have hlen : ((if rooted then ['/'] else ([] : List Char)) ++ x).length - 1
        = (if rooted then ['/'] else ([] : List Char)).length + (x.length - 1) := by
      rw [List.length_append]; omega
    rw [hmark, hlen, backtrack_at_mark _ x hx, hrender, List.take_left']
    rfl
  · rw [if_neg hcs]
    have hmark : mark rooted ⟨ups, elems ++ [x]⟩ ≤ (render rooted ⟨ups, elems⟩).length := by
      rw [render_length, mark]
      have := sepJoin_length_le (dots ups) elems
      simp only at this ⊢
      omega
    have hlen : (render rooted ⟨ups, elems⟩ ++ '/' :: x).length - 1
        = (render rooted ⟨ups, elems⟩).length + x.length := by
      rw [List.length_append, List.length_cons]; omega
    rw [hlen, backtrack_at_slash _ x _ hx hmark x.length (le_refl _), List.take_left']
    rfl

theorem dots_succ (n : Nat) : dots (n + 1) = dots n ++ [['.', '.']] := by
  unfold dots
  exact List.replicate_succ' _ _

/-- One iteration of the loop of `path.Clean` on a non-empty element `e`
that ends at the end of the path or at a slash is the step `keep` on the kept
elements. -/
theorem cleanLoop_keep (rooted : Bool) (fuel : Nat) (e t : List Char) (k : Kept)
    (hv : k.Valid rooted) (hne : e ≠ []) (hs : '/' ∉ e)
    (ht : t = [] ∨ ∃ t1, t = '/' :: t1) :
    cleanLoop rooted (fuel + 1) (e ++ t) (render rooted k) (mark rooted k)
      = cleanLoop rooted fuel t (render rooted (keep rooted k e))
          (mark rooted (keep rooted k e)) := by
  obtain ⟨ups, elems⟩ := k
  by_cases hdot : e = ['.']
  · subst hdot
    have hk : keep rooted ⟨ups, elems⟩ ['.'] = ⟨ups, elems⟩ := by simp [keep]
    rw [hk]
    exact cleanLoop_dot rooted fuel t _ _ ht
  by_cases hdd : e = ['.', '.']
  · subst hdd
    have happ : ['.', '.'] ++ t = '.' :: '.' :: t := rfl
    rw [happ, cleanLoop_dotdot rooted fuel t _ _ ht]
    by_cases hel : elems = []
    · subst hel
      have hlen := render_length_eq_mark rooted ⟨ups, []⟩ rfl
      rw [if_neg (by omega)]
      cases rooted with
      | true =>
          have hk : keep true ⟨ups, []⟩ ['.', '.'] = ⟨ups, []⟩ := by simp [keep]
          rw [hk]
          rfl
      | false =>
          have hk : keep false ⟨ups, []⟩ ['.', '.'] = ⟨ups + 1, []⟩ := by simp [keep]
          rw [hk]
          have hout : (if (render false ⟨ups, []⟩).length > 0
              then render false ⟨ups, []⟩ ++ ['/'] else render false ⟨ups, []⟩) ++ ['.', '.']
              = render false ⟨ups + 1, []⟩ := by
            unfold render
            simp only [Bool.false_eq_true, if_false, List.nil_append, List.append_nil]
            rw [dots_succ, sepJoin_snoc]
            by_cases hd : dots ups = []
            · rw [if_pos hd, hd]
              simp [sepJoin]
            · rw [if_neg hd, if_pos ((sepJoin_length_pos_iff _ (dots_ne_nil ups)).2 hd)]
              simp
          have hmk : mark false ⟨ups + 1, []⟩ = (render false ⟨ups + 1, []⟩).length :=
            (render_length_eq_mark false ⟨ups + 1, []⟩ rfl).symm
          simp only [Bool.not_false, if_true]
          rw [hout, hmk]
    · obtain ⟨front, x, hfx⟩ : ∃ front x, elems = front ++ [x] :=
        ⟨elems.dropLast, elems.getLast hel, (List.dropLast_append_getLast hel).symm⟩
      subst hfx
      have hx := hv.1 x (by simp)
      have hgt := render_length_gt_mark rooted ⟨ups, front ++ [x]⟩ hv (by simp)
      have hk : keep rooted ⟨ups, front ++ [x]⟩ ['.', '.'] = ⟨ups, front⟩ := by
        simp [keep]
      rw [if_pos hgt, hk, render_drop_last rooted ups front x hx.2.1 hx.1]
      rfl
  · have hreal : IsReal e := ⟨hne, hs, hdot, hdd⟩
    have hk : keep rooted ⟨ups, elems⟩ e = ⟨ups, elems ++ [e]⟩ := by
      simp [keep, hne, hdot, hdd]
    rw [hk, cleanLoop_real rooted fuel e t _ _ hreal ht, render_snoc]
    have hmk : mark rooted ⟨ups, elems ++ [e]⟩ = mark rooted ⟨ups, elems⟩ := rfl
    rw [hmk]
    have hpos := sepJoin_length_pos_iff (dots ups ++ elems) hv.parts_ne_nil
    by_cases hcs : dots ups ++ elems = []
    · have hz : (sepJoin (dots ups ++ elems)).length = 0 := by rw [hcs]; rfl
      have hrender : render rooted ⟨ups, elems⟩ = (if rooted then ['/'] else []) := by
        unfold render
        simp only [hcs, sepJoin, List.append_nil]
      rw [if_pos hcs]
      cases rooted with
      | true =>
          have hlen : (render true ⟨ups, elems⟩).length
              = 1 + (sepJoin (dots ups ++ elems)).length := render_length true ⟨ups, elems⟩
          rw [if_neg (by simp [hlen, hz]), hrender]
      | false =>
          have hlen : (render false ⟨ups, elems⟩).length
              = 0 + (sepJoin (dots ups ++ elems)).length := render_length false ⟨ups, elems⟩
          rw [if_neg (by simp [hlen, hz]), hrender]
    · have hz : 0 < (sepJoin (dots ups ++ elems)).length := hpos.2 hcs
      rw [if_neg hcs]
      cases rooted with
      | true =>
          have hlen : (render true ⟨ups, elems⟩).length
              = 1 + (sepJoin (dots ups ++ elems)).length := render_length true ⟨ups, elems⟩
          rw [if_pos (Or.inl ⟨rfl, by omega⟩)]
          simp
      | false =>
          have hlen : (render false ⟨ups, elems⟩).length
              = 0 + (sepJoin (dots ups ++ elems)).length := render_length false ⟨ups, elems⟩
          rw [if_pos (Or.inr ⟨rfl, by omega⟩)]
          simp

theorem foldl_keep_valid (rooted : Bool) (es : List (List Char)) (k : Kept)
    (hv : k.Valid rooted) (hs : ∀ e ∈ es, '/' ∉ e) :
    (es.foldl (keep rooted) k).Valid rooted := by
  induction es generalizing k with
  | nil => exact hv
  | cons e rest ih =>
      rw [List.foldl_cons]
      exact ih _ (keep_valid rooted k e hv (hs e (List.mem_cons_self _ _)))
        (fun x hx => hs x (List.mem_cons_of_mem _ hx))

theorem keep_nil (rooted : Bool) (k : Kept) : keep rooted k [] = k := by
  simp [keep]

theorem keep_dot (rooted : Bool) (k : Kept) : keep rooted k ['.'] = k := by
  simp [keep]

theorem valid_init (rooted : Bool) : Kept.Valid rooted ⟨0, []⟩ :=
  ⟨fun e he => (by cases he), fun _ => rfl⟩

theorem normalize_valid (rooted : Bool) (p : List Char) :
    (normalize rooted (splitSlash p)).Valid rooted :=
  foldl_keep_valid rooted _ _ (valid_init rooted) (splitSlash_slashFree p)

/-- The loop of `path.Clean`, run with enough fuel on a path given by its
elements, folds `keep` over the elements. -/
theorem cleanLoop_sepJoin (rooted : Bool) (es : List (List Char)) (hes : es ≠ [])
    (hs : ∀ e ∈ es, '/' ∉ e) (fuel : Nat) (hfuel : (sepJoin es).length ≤ fuel) (k : Kept)
    (hv : k.Valid rooted) :
    cleanLoop rooted fuel (sepJoin es) (render rooted k) (mark rooted k)
      = render rooted (es.foldl (keep rooted) k) := by
  induction es generalizing fuel k with
  | nil => exact absurd rfl hes
  | cons e rest ih =>
      have he := hs e (List.mem_cons_self _ _)
      cases rest with
      | nil =>
          simp only [sepJoin, List.foldl_cons, List.foldl_nil] at hfuel ⊢
          by_cases hne : e = []
          · subst hne
            rw [cleanLoop_nil, keep_nil]
          · cases fuel with
            | zero =>
                have := List.length_pos.2 hne
                omega
            | succ f =>
                have := cleanLoop_keep rooted f e [] k hv hne he (Or.inl rfl)
                rw [List.append_nil] at this
                rw [this, cleanLoop_nil]
      | cons e2 rest2 =>
          rw [sepJoin_cons_cons] at hfuel ⊢
          rw [List.foldl_cons]
          have hrest : ∀ x ∈ e2 :: rest2, '/' ∉ x :=
            fun x hx => hs x (List.mem_cons_of_mem _ hx)
          simp only [List.length_append, List.length_cons] at hfuel
          by_cases hne : e = []
          · subst hne
            cases fuel with
            | zero => omega
            | succ f =>
                rw [List.nil_append, cleanLoop_slash, keep_nil]
                exact ih (by simp) hrest f (by simp at hfuel; omega) k hv
          · have hpos := List.length_pos.2 hne
            cases fuel with
            | zero => omega
            | succ f =>
                cases f with
                | zero => omega
                | succ f =>
                    rw [cleanLoop_keep rooted (f + 1) e _ k hv hne he (Or.inr ⟨_, rfl⟩),
                      cleanLoop_slash]
                    exact ih (by simp) hrest f (by omega) _ (keep_valid rooted k e hv he)

theorem sepJoin_cons_char (c : Char) (e : List Char) (es : List (List Char)) :
    sepJoin ((c :: e) :: es) = c :: sepJoin (e :: es) := by
  cases es with
  | nil => rfl
  | cons e2 rest => rfl

theorem sepJoin_splitSlash (p : List Char) : sepJoin (splitSlash p) = p := by
  induction p with
  | nil => rfl
  | cons c rest ih =>
      by_cases hc : c = '/'
      · subst hc
        rw [splitSlash_slash, sepJoin_cons _ _ (splitSlash_ne_nil rest), ih]
        rfl
      · rw [splitSlash_cons c rest hc]
        have hne := splitSlash_ne_nil rest
        revert hne ih
        cases splitSlash rest with
        | nil => intro _ hne; exact absurd rfl hne
        | cons x xs =>
            intro ih _
            rw [List.headD_cons, List.tail_cons, sepJoin_cons_char, ih]

/-- Go `path.Clean` keeps the elements of the path as `normalize` says, writes
them with slashes between them after the leading slash of a rooted path, and
turns an empty result into `.`. -/
theorem cleanChars_eq (p : List Char) :
    cleanChars p = finish (render (isRooted p) (normalize (isRooted p) (splitSlash p))) := by
  cases p with
  | nil => rfl
  | cons c q =>
      unfold cleanChars
      rw [if_neg (by simp)]
      by_cases hc : c = '/'
      · subst hc
        have hr : isRooted ('/' :: q) = true := by simp [isRooted]
        have hd : (decide (('/' :: q)[0]? = some '/')) = true := by simp
        simp only [hd, if_true, hr]
        have hloop := cleanLoop_sepJoin true (splitSlash q) (splitSlash_ne_nil q)
          (splitSlash_slashFree q) ('/' :: q).length
          (by rw [sepJoin_splitSlash]; simp) ⟨0, []⟩ (valid_init true)
        rw [sepJoin_splitSlash] at hloop
        have hinit : render true ⟨0, []⟩ = ['/'] := rfl
        have hmark : mark true ⟨0, []⟩ = 1 := rfl
        rw [hinit, hmark] at hloop
        rw [List.drop_one, List.tail_cons, hloop]
        unfold normalize
        rw [splitSlash_slash, List.foldl_cons, keep_nil]
        rfl
      · have hr : isRooted (c :: q) = false := by simp [isRooted, hc]
        have hd : (decide ((c :: q)[0]? = some '/')) = false := by simp [hc]
        simp only [hd, Bool.false_eq_true, if_false, hr]
        have hloop := cleanLoop_sepJoin false (splitSlash (c :: q)) (splitSlash_ne_nil _)
          (splitSlash_slashFree _) (c :: q).length
          (by rw [sepJoin_splitSlash]) ⟨0, []⟩ (valid_init false)
        rw [sepJoin_splitSlash] at hloop
        have hinit : render false ⟨0, []⟩ = [] := rfl
        have hmark : mark false ⟨0, []⟩ = 0 := rfl
        rw [hinit, hmark] at hloop
        rw [hloop]
        rfl

theorem foldl_keep_real (rooted : Bool) (es : List (List Char)) (hes : ∀ e ∈ es, IsReal e)
    (u : Nat) (xs : List (List Char)) :
    es.foldl (keep rooted) ⟨u, xs⟩ = ⟨u, xs ++ es⟩ := by
  induction es generalizing xs with
  | nil => simp
  | cons e rest ih =>
      obtain ⟨h1, -, h3, h4⟩ := hes e (List.mem_cons_self _ _)
      have hk : keep rooted ⟨u, xs⟩ e = ⟨u, xs ++ [e]⟩ := by simp [keep, h1, h3, h4]
      rw [List.foldl_cons, hk, ih (fun x hx => hes x (List.mem_cons_of_mem _ hx))]
      simp

theorem foldl_keep_dots (n u : Nat) :
    (dots n).foldl (keep false) ⟨u, []⟩ = ⟨u + n, []⟩ := by
  induction n generalizing u with
  | zero => rfl
  | succ n ih =>
      have hd : dots (n + 1) = ['.', '.'] :: dots n := rfl
      have hk : keep false ⟨u, []⟩ ['.', '.'] = ⟨u + 1, []⟩ := by simp [keep]
      rw [hd, List.foldl_cons, hk, ih]
      congr 1
      omega

theorem finish_ne_nil (out : List Char) : finish out ≠ [] := by
  unfold finish
  split
  · simp
  · next h => exact fun h1 => h (by rw [h1]; rfl)

theorem finish_of_ne_nil (out : List Char) (h : out ≠ []) : finish out = out := by
  unfold finish
  rw [if_neg]
  exact fun h1 => h (List.length_eq_zero.1 h1)

theorem cleanChars_ne_nil (p : List Char) : cleanChars p ≠ [] := by
  rw [cleanChars_eq]
  exact finish_ne_nil _

/-- Reading the output of `path.Clean` again gives back the kept elements. -/
theorem normalize_render (rooted : Bool) (k : Kept) (hv : k.Valid rooted) :
    normalize rooted (splitSlash (finish (render rooted k))) = k := by
  obtain ⟨ups, elems⟩ := k
  cases rooted with
  | true =>
      have hu : ups = 0 := hv.2 rfl
      subst hu
      have hr : render true ⟨0, elems⟩ = '/' :: sepJoin elems := rfl
      rw [hr, finish_of_ne_nil _ (by simp), splitSlash_slash]
      unfold normalize
      rw [List.foldl_cons, keep_nil]
      by_cases hel : elems = []
      · subst hel
        rfl
      · rw [splitSlash_sepJoin elems hel (fun e he => (hv.1 e he).2.1),
          foldl_keep_real true elems hv.1]
        rfl
  | false =>
      have hr : render false ⟨ups, elems⟩ = sepJoin (dots ups ++ elems) := rfl
      rw [hr]
      by_cases hcs : dots ups ++ elems = []
      · obtain ⟨hd, hel⟩ := List.append_eq_nil.1 hcs
        have hu : ups = 0 := by
          cases ups with
          | zero => rfl
          | succ n => cases hd
        subst hu hel
        rfl
      · rw [finish_of_ne_nil _ (sepJoin_ne_nil _ hcs hv.parts_ne_nil),
          splitSlash_sepJoin _ hcs hv.parts_slashFree]
        unfold normalize
        rw [List.foldl_append, foldl_keep_dots, foldl_keep_real false elems hv.1]
        simp

/-- The output of `path.Clean` starts with a slash exactly when the path is
rooted. -/
theorem isRooted_render (rooted : Bool) (k : Kept) (hv : k.Valid rooted) :
    isRooted (finish (render rooted k)) = rooted := by
  obtain ⟨ups, elems⟩ := k
  cases rooted with
  | true =>
      have hr : render true ⟨ups, elems⟩ = '/' :: sepJoin (dots ups ++ elems) := rfl
      rw [hr, finish_of_ne_nil _ (by simp)]
      simp [isRooted]
  | false =>
      have hr : render false ⟨ups, elems⟩ = sepJoin (dots ups ++ elems) := rfl
      rw [hr]
      by_cases hcs : dots ups ++ elems = []
      · rw [hcs]
        rfl
      · rw [finish_of_ne_nil _ (sepJoin_ne_nil _ hcs hv.parts_ne_nil)]
        have hne := hv.parts_ne_nil
        have hsf := hv.parts_slashFree
        revert hcs hne hsf
        cases dots ups ++ elems with
        | nil => intro hcs; exact absurd rfl hcs
        | cons c0 rest =>
            intro _ hne hsf
            have h0 := hne c0 (List.mem_cons_self _ _)
            have h1 := hsf c0 (List.mem_cons_self _ _)
            cases c0 with
            | nil => exact absurd rfl h0
            | cons a c1 =>
                have ha : a ≠ '/' := fun h => h1 (by rw [h]; exact List.mem_cons_self _ _)
                rw [sepJoin_cons_char]
                simp [isRooted, ha]

theorem isRooted_append (p q : List Char) (hp : p ≠ []) :
    isRooted (p ++ q) = isRooted p := by
  cases p with
  | nil => exact absurd rfl hp
  | cons c rest => simp [isRooted]

theorem normalize_snoc (rooted : Bool) (es : List (List Char)) (e : List Char) :
    normalize rooted (es ++ [e]) = keep rooted (normalize rooted es) e := by
  unfold normalize
  rw [List.foldl_append]
  rfl

/-- Go `path.Clean(p + "/.")` is `path.Clean(p)` for a non-empty `p`. -/
theorem cleanChars_append_dot (p : List Char) (hp : p ≠ []) :
    cleanChars (p ++ '/' :: ['.']) = cleanChars p := by
  rw [cleanChars_eq, cleanChars_eq, isRooted_append p _ hp, splitSlash_append]
  have : splitSlash ['.'] = [['.']] := rfl
  rw [this, normalize_snoc, keep_dot]

/-- Cleaning the directory part of a path first and then appending the last
element changes nothing: `Clean(Clean(d) + "/" + b) = Clean(d + b)` when `d` is
empty or ends with a slash and `b` has no slash. -/
theorem cleanChars_dir_base (d b : List Char) (hd : d = [] ∨ ∃ d1, d = d1 ++ ['/'])
    (hb : '/' ∉ b) :
    cleanChars (cleanChars d ++ '/' :: b) = cleanChars (d ++ b) := by
  have hvd := normalize_valid (isRooted d) d
  have hsb : splitSlash b = [b] := splitSlash_elem b hb
  have hleft : cleanChars (cleanChars d ++ '/' :: b)
      = finish (render (isRooted d) (keep (isRooted d) (normalize (isRooted d) (splitSlash d)) b)) := by
    rw [cleanChars_eq (cleanChars d ++ '/' :: b), isRooted_append _ _ (cleanChars_ne_nil d),
      splitSlash_append, hsb, normalize_snoc]
    rw [cleanChars_eq d, isRooted_render _ _ hvd, normalize_render _ _ hvd]
  rw [hleft, cleanChars_eq (d ++ b)]
  rcases hd with rfl | ⟨d1, rfl⟩
  · have hrb : isRooted b = false := by
      cases b with
      | nil => rfl
      | cons x rest =>
          have hx : x ≠ '/' := fun h => hb (by rw [h]; exact List.mem_cons_self _ _)
          simp [isRooted, hx]
    have hr0 : isRooted [] = false := rfl
    rw [List.nil_append, hrb, hr0, hsb]
    rfl
  · have hsplit : splitSlash (d1 ++ ['/']) = splitSlash d1 ++ [[]] := splitSlash_append d1 []
    have happ : d1 ++ ['/'] ++ b = d1 ++ '/' :: b := by simp
    rw [isRooted_append _ b (by simp), hsplit, normalize_snoc, keep_nil, happ,
      splitSlash_append, hsb, normalize_snoc]

/-! ## Properties of `setSourceDirectory` -/

theorem lastIndexByte_spec (p : List Char) :
    (LastIndexByte '/' p = -1 ∧ '/' ∉ p)
      ∨ ∃ d1 b, p = d1 ++ '/' :: b ∧ '/' ∉ b ∧ LastIndexByte '/' p = (d1.length : Int) := by
  induction p with
  | nil => exact Or.inl ⟨rfl, by simp⟩
  | cons x xs ih =>
      rw [LastIndexByte]
      rcases ih with ⟨h1, h2⟩ | ⟨d1, b, h1, h2, h3⟩
      · rw [h1]
        by_cases hx : x = '/'
        · subst hx
          exact Or.inr ⟨[], xs, rfl, h2, by simp⟩
        · refine Or.inl ⟨by simp [hx], ?_⟩
          intro hmem
          rcases List.mem_cons.1 hmem with h | h
          · exact hx h.symm
          · exact h2 h
      · refine Or.inr ⟨x :: d1, b, by rw [h1]; rfl, h2, ?_⟩
        rw [h3, if_pos (by omega)]
        simp

theorem split_spec (p : List Char) :
    ∃ d b, p = d ++ b
      ∧ p.take (LastIndexByte '/' p + 1).toNat = d
      ∧ p.drop (LastIndexByte '/' p + 1).toNat = b
      ∧ (d = [] ∨ ∃ d1, d = d1 ++ ['/']) ∧ '/' ∉ b
      ∧ (0 ≤ LastIndexByte '/' p ∨ d = []) := by
  rcases lastIndexByte_spec p with ⟨h1, h2⟩ | ⟨d1, b, h1, h2, h3⟩
  · refine ⟨[], p, rfl, ?_, ?_, Or.inl rfl, h2, Or.inr rfl⟩
    · rw [h1]; rfl
    · rw [h1]; rfl
  · have hn : (LastIndexByte '/' p + 1).toNat = (d1 ++ ['/']).length := by
      rw [h3]; simp
    have hp : p = (d1 ++ ['/']) ++ b := by rw [h1]; simp
    refine ⟨d1 ++ ['/'], b, hp, ?_, ?_, Or.inr ⟨d1, rfl⟩, h2, Or.inl (by rw [h3]; omega)⟩
    · rw [hn]
      conv => lhs; rw [hp]
      exact List.take_left' rfl
    · rw [hn]
      conv => lhs; rw [hp]
      exact List.drop_left' rfl

theorem stripSlashes_id (fuel : Nat) (p : List Char) (h : p.getLast? ≠ some '/') :
    stripSlashes fuel p = p := by
  cases fuel with
  | zero => rfl
  | succ f => rw [stripSlashes, if_neg h]

/-- Go `path.Base` of a non-empty path that does not end with a slash is what
`path.Split` returns as the file. -/
theorem base_eq_split (p : String) (hne : p.data ≠ []) (hl : p.data.getLast? ≠ some '/') :
    Base p = (Split p).2 := by
  obtain ⟨d, b, hp, -, hdrop, hd, -, hidx⟩ := split_spec p.data
  unfold Base Split
  rw [if_neg hne]
  simp only [stripSlashes_id _ _ hl]
  have hb : b ≠ [] := by
    intro hb
    rw [hb, List.append_nil] at hp
    rcases hd with hd | ⟨d1, hd⟩
    · exact hne (by rw [hp, hd])
    · exact hl (by rw [hp, hd]; simp)
  have hpath2 : (if LastIndexByte '/' p.data ≥ 0
      then p.data.drop (LastIndexByte '/' p.data + 1).toNat else p.data) = b := by
    split
    · exact hdrop
    · next hneg =>
        rcases hidx with h | h
        · exact absurd h hneg
        · rw [h, List.nil_append] at hp
          exact hp
  rw [hpath2, if_neg hb, hdrop]

/-- Go `path.Join(path.Dir(p), path.Base(p))` is `path.Clean(p)` for a path
that does not end with a slash. -/
theorem join_dir_base (p : String) (hl : p.data.getLast? ≠ some '/') :
    Join [Dir p, Base p] = Clean p := by
  by_cases hne : p.data = []
  · have hp : p = "" := by
      cases p with
      | mk data => simp only at hne; rw [hne]
    subst hp
    decide
  · obtain ⟨d, b, hp, htake, hdrop, hd, hb, -⟩ := split_spec p.data
    have hdir : (Dir p).data = cleanChars d := by
      unfold Dir Clean Split
      simp only [htake]
    have hbase : (Base p).data = b := by
      rw [base_eq_split p hne hl]
      unfold Split
      simp only [hdrop]
    have hjoin : Join [Dir p, Base p] = Clean (Dir p ++ "/" ++ Base p) := by
      unfold Join
      rw [if_pos (by rw [hdir]; exact cleanChars_ne_nil d)]
      rfl
    rw [hjoin]
    unfold Clean
    congr 1
    have hdata : (Dir p ++ "/" ++ Base p).data = cleanChars d ++ '/' :: b := by
      rw [String.data_append, String.data_append, hdir, hbase]
      simp
    rw [hdata, cleanChars_dir_base d b hd hb, ← hp]

/-- Go `path.Join(p, ".")` is `path.Clean(p)`. -/
theorem join_dot (p : String) : Join [p, "."] = Clean p := by
  by_cases hne : p.data = []
  · have hp : p = "" := by
      cases p with
      | mk data => simp only at hne; rw [hne]
    subst hp
    decide
  · unfold Join
    rw [if_pos hne]
    have hj : joinSlash [p, "."] = p ++ "/" ++ "." := rfl
    rw [hj]
    unfold Clean
    congr 1
    have hdata : (p ++ "/" ++ ".").data = p.data ++ '/' :: ['.'] := by
      rw [String.data_append, String.data_append]
      simp
    rw [hdata, cleanChars_append_dot p.data hne]

theorem indexFrom_range (substr s : List Char) (i : Nat) :
    indexFrom substr s i = -1 ∨ (i : Int) ≤ indexFrom substr s i := by
  induction s generalizing i with
  | nil =>
      rw [indexFrom]
      split
      · exact Or.inr (le_refl _)
      · exact Or.inl rfl
  | cons c cs ih =>
      rw [indexFrom]
      split
      · exact Or.inr (le_refl _)
      · rcases ih (i + 1) with h | h
        · exact Or.inl h
        · exact Or.inr (by push_cast at h; omega)

theorem index_eq_zero_iff (s substr : String) :
    Index s substr = 0 ↔ substr.data <+: s.data := by
  unfold Index
  cases hs : s.data with
  | nil =>
      rw [indexFrom]
      constructor
      · intro h
        split at h
        · next h0 => rw [h0]
        · cases h
      · intro h
        rw [if_pos (List.prefix_nil.1 h)]
        rfl
  | cons c cs =>
      rw [indexFrom]
      by_cases hp : substr.data.isPrefixOf (c :: cs) = true
      · rw [if_pos hp]
        exact ⟨fun _ => List.isPrefixOf_iff_prefix.1 hp, fun _ => rfl⟩
      · rw [if_neg hp]
        constructor
        · intro h
          rcases indexFrom_range substr.data cs (0 + 1) with h1 | h1
          · rw [h1] at h; cases h
          · rw [h] at h1
            simp at h1
        · intro h
          exact absurd (List.isPrefixOf_iff_prefix.2 h) hp

theorem replaceOnce_prefix (old p : String) (hold : old.data ≠ []) :
    ReplaceOnce (old ++ p) old "" = p := by
  unfold ReplaceOnce
  rw [String.data_append]
  cases ho : old.data with
  | nil => exact absurd ho hold
  | cons c cs =>
      rw [List.cons_append, replaceFirst]
      have hpre : (c :: cs).isPrefixOf (c :: (cs ++ p.data)) = true :=
        List.isPrefixOf_iff_prefix.2 ⟨p.data, rfl⟩
      rw [if_pos hpre]
      have : (c :: (cs ++ p.data)).drop (c :: cs).length = p.data := by
        exact (List.drop_left' rfl :
          List.drop (c :: cs).length ((c :: cs) ++ p.data) = p.data)
      rw [this]
      rfl

theorem file_scheme_prefix (p : String) : "file://".data <+: ("file://" ++ p).data := by
  rw [String.data_append]
  exact List.prefix_append _ _

/-- C9: let `os.Getwd` and `getter.Detect` succeed, the latter with
`getterSource`, and let `os.Stat` report a non-directory only for paths that
do not end in a slash. If `getterSource` is `"file://" ++ p`: when `p` is a
directory the call succeeds with `l.pwd = p` and `l.src = "."`; when `p` is a
regular file it succeeds with `l.pwd = path.Dir(p)` and `l.src = path.Base(p)`;
in both cases `path.Join(l.pwd, l.src) = path.Clean(p)`. If `getterSource` does
not start with `"file://"` the call succeeds and leaves the loader as it
was. -/
theorem setSourceDirectory_spec (env : Env) (l : Loader) (cwd getterSource : String)
    (hwd : env.getwd = .ok cwd) (hdet : env.detect l.src cwd = .ok getterSource)
    (hfile : ∀ q, env.stat q = .ok false → q.data.getLast? ≠ some '/') :
    (∀ p, getterSource = "file://" ++ p →
      (env.stat p = .ok true →
        setSourceDirectory env l = (.ok (), { l with pwd := p, src := "." })
          ∧ (setSourceDirectory env l).2.pwd = p
          ∧ (setSourceDirectory env l).2.src = "."
          ∧ Join [(setSourceDirectory env l).2.pwd, (setSourceDirectory env l).2.src]
              = Clean p)
      ∧ (env.stat p = .ok false →
        setSourceDirectory env l = (.ok (), { l with pwd := Dir p, src := Base p })
          ∧ (setSourceDirectory env l).2.pwd = Dir p
          ∧ (setSourceDirectory env l).2.src = Base p
          ∧ Join [(setSourceDirectory env l).2.pwd, (setSourceDirectory env l).2.src]
              = Clean p))
    ∧ (¬ "file://".data <+: getterSource.data →
        setSourceDirectory env l = (.ok (), l)) := by
  constructor
  · intro p hp
    have hidx : Index getterSource "file://" = 0 := by
      rw [index_eq_zero_iff, hp]
      exact file_scheme_prefix p
    have hrep : ReplaceOnce getterSource "file://" "" = p := by
      rw [hp]
      exact replaceOnce_prefix "file://" p (by decide)
    constructor
    · intro hstat
      have hres : setSourceDirectory env l = (.ok (), { l with pwd := p, src := "." }) := by
        unfold setSourceDirectory
        simp only [hwd, hdet, hidx, if_true, hrep, hstat]
        rfl
      refine ⟨hres, by rw [hres], by rw [hres], ?_⟩
      rw [hres]
      exact join_dot p
    · intro hstat
      have hres : setSourceDirectory env l
          = (.ok (), { l with pwd := Dir p, src := Base p }) := by
        unfold setSourceDirectory
        simp only [hwd, hdet, hidx, if_true, hrep, hstat]
        rfl
      refine ⟨hres, by rw [hres], by rw [hres], ?_⟩
      rw [hres]
      exact join_dir_base p (hfile p hstat)
  · intro hnot
    have hidx : ¬ Index getterSource "file://" = 0 := by
      rw [index_eq_zero_iff]
      exact hnot
    unfold setSourceDirectory
    simp only [hwd, hdet, hidx, if_false]

theorem fileEnv_stat (q : String) (h : fileEnv.stat q = .ok false) :
    q.data.getLast? ≠ some '/' := by
  unfold fileEnv at h
  simp only at h
  split at h
  · next hq => rw [hq]; decide
  · split at h
    · cases h
    · cases h

theorem setSourceDirectory_spec_witness :
    (setSourceDirectory fileEnv (emptyLoader "sub/module.ext")).2.pwd = "/project/sub"
      ∧ (setSourceDirectory fileEnv (emptyLoader "sub/module.ext")).2.src = "module.ext"
      ∧ Join ["/project/sub", "module.ext"] = Clean "/project/sub/module.ext"
      ∧ Join ["/project/sub", "../other"] = "/project/other" := by
  have h := (setSourceDirectory_spec fileEnv (emptyLoader "sub/module.ext") "/work"
    "file:///project/sub/module.ext" rfl rfl fileEnv_stat).1
    "/project/sub/module.ext" (by decide)
  obtain ⟨-, h1, h2, h3⟩ := h.2 rfl
  have hd : Dir "/project/sub/module.ext" = "/project/sub" := by decide
  have hb : Base "/project/sub/module.ext" = "module.ext" := by decide
  rw [h1, h2, hd, hb] at h3
  exact ⟨by rw [h1, hd], by rw [h2, hb], h3, by decide⟩

end Tau
